import Mathlib

/-! # Verification development for `root-me` (Go)

Shallow embedding of the three puzzle solvers of the repository

* `arithmetic-progression/main.go`        (namespace `ArithmeticProgression`)
* `second-degree-polynomial-solver/main.go` (namespace `SecondDegree`)
* `quick-response-code/main.go`           (namespace `QuickResponseCode`)

Conventions of the embedding.

* Go `int` and `int64` are 64-bit two's-complement integers.  They are
  embedded as `Int`, every arithmetic operation being followed by `wrap64`.
* A Go `panic` is embedded as `Except.error` carrying the panic message.
* Session cookies are carried through unchanged; they are embedded as an
  uninterpreted list of strings.
-/

/-- Reduction of a mathematical integer to the 64-bit two's-complement
range `[-2^63, 2^63)`: the value a Go `int64` / `int` operation stores
(`2^63 = 9223372036854775808`, `2^64 = 18446744073709551616`). -/
def wrap64 (x : Int) : Int :=
  (x + 9223372036854775808) % 18446744073709551616 - 9223372036854775808

/-- Go `a + b` on `int64`. -/
def add64 (a b : Int) : Int := wrap64 (a + b)

/-- Go `a - b` on `int64`. -/
def sub64 (a b : Int) : Int := wrap64 (a - b)

/-- Go `a * b` on `int64`. -/
def mul64 (a b : Int) : Int := wrap64 (a * b)

/-- Go unary `-a` on `int64`. -/
def neg64 (a : Int) : Int := wrap64 (-a)

/-- A Go `int`: a mathematical integer in `[-2^63, 2^63)`. -/
def isInt64 (x : Int) : Prop := -9223372036854775808 ≤ x ∧ x < 9223372036854775808

instance (x : Int) : Decidable (isInt64 x) := by unfold isInt64; infer_instance

namespace ArithmeticProgression

/-- The record `Challenge` of `arithmetic-progression/main.go`:
`Un+1 = [ A + Un ] sign [ n * B ]`. -/
structure Challenge where
  ZeroElement : Int
  A : Int
  B : Int
  Sign : Char
  N : Int
  cookies : List String
  deriving DecidableEq, Repr

/-- The record `Solution` of `arithmetic-progression/main.go`. -/
structure Solution where
  Un : Int
  cookies : List String
  deriving DecidableEq, Repr

/-- The body of the `for` loop of `Solve` for loop counter `n` and current
term `u`: the `switch challenge.Sign` with its three arms.  The counter
satisfies `0 ≤ n < N < 2^63`, so the conversion `int64(n)` is the identity. -/
def solveStep (challenge : Challenge) (u : Int) (n : Nat) : Except String Int :=
  if challenge.Sign = '+' then
    .ok (add64 (add64 challenge.A u) (mul64 (n : Int) challenge.B))
  else if challenge.Sign = '-' then
    .ok (sub64 (add64 challenge.A u) (mul64 (n : Int) challenge.B))
  else
    .error "invalid sign"

/-- The function `Solve` of `arithmetic-progression/main.go`.  The loop
`for n := 0; n < challenge.N; n++` runs its body for `n = 0, …, N-1` (not at
all when `N ≤ 0`); a panic in the body aborts the whole call. -/
def Solve (challenge : Challenge) : Except String Solution :=
  match (List.range challenge.N.toNat).foldlM (solveStep challenge) challenge.ZeroElement with
  | .ok u => .ok { Un := u, cookies := challenge.cookies }
  | .error msg => .error msg

/-- The recurrence as the specification words it: `U[0] = zeroElement` and
`U[n+1] = (A + U[n]) + n*B` for sign `+`, `(A + U[n]) - n*B` otherwise, in
64-bit signed arithmetic. -/
def U (zeroElement A B : Int) (plus : Bool) : Nat → Int
  | 0 => zeroElement
  | n + 1 =>
    if plus then add64 (add64 A (U zeroElement A B plus n)) (mul64 (n : Int) B)
    else sub64 (add64 A (U zeroElement A B plus n)) (mul64 (n : Int) B)

end ArithmeticProgression

namespace QuickResponseCode

/-- Go `image.Point`. -/
structure Point where
  X : Int
  Y : Int
  deriving DecidableEq, Repr

/-- Go `image.Rectangle`: the points with `Min.X ≤ X < Max.X` and
`Min.Y ≤ Y < Max.Y`. -/
structure Rectangle where
  Min : Point
  Max : Point
  deriving DecidableEq, Repr

/-- Go `image.Rect`: the rectangle of the two corners, the coordinates swapped
where necessary so that it is well-formed. -/
def Rect (x0 y0 x1 y1 : Int) : Rectangle :=
  let (x0, x1) := if x0 > x1 then (x1, x0) else (x0, x1)
  let (y0, y1) := if y0 > y1 then (y1, y0) else (y0, y1)
  { Min := { X := x0, Y := y0 }, Max := { X := x1, Y := y1 } }

/-- Go `Rectangle.Dx`: `r.Max.X - r.Min.X` in `int`. -/
def Rectangle.Dx (r : Rectangle) : Int := sub64 r.Max.X r.Min.X

/-- Go `Rectangle.Dy`: `r.Max.Y - r.Min.Y` in `int`. -/
def Rectangle.Dy (r : Rectangle) : Int := sub64 r.Max.Y r.Min.Y

/-- Go `mul3NonNeg` of package `image`: the product `x * y * z`, or `-1` when
an argument is negative or the computation overflows `int` (the two 64-bit
multiplications must have a zero high word, `2^64 = 18446744073709551616`,
and the result must be non-negative as an `int`,
`2^63 = 9223372036854775808`). -/
def mul3NonNeg (x y z : Int) : Int :=
  if x < 0 ∨ y < 0 ∨ z < 0 then -1
  else if 18446744073709551616 ≤ x * y then -1
  else if 18446744073709551616 ≤ x * y * z then -1
  else if 9223372036854775808 ≤ x * y * z then -1
  else x * y * z

/-- The bounds `image.NewRGBA` accepts: `pixelBufferLength(4, r, "RGBA")`,
that is `mul3NonNeg(4, r.Dx(), r.Dy())`, is not negative. -/
def Allocable (r : Rectangle) : Prop := 0 ≤ mul3NonNeg 4 r.Dx r.Dy

instance (r : Rectangle) : Decidable (Allocable r) := by
  unfold Allocable; infer_instance

/-- Go `Rectangle.Empty`. -/
def Rectangle.Empty (r : Rectangle) : Bool :=
  decide (r.Min.X ≥ r.Max.X) || decide (r.Min.Y ≥ r.Max.Y)

/-- Go `Point.In`. -/
def Point.In (p : Point) (r : Rectangle) : Bool :=
  decide (r.Min.X ≤ p.X) && decide (p.X < r.Max.X) &&
    decide (r.Min.Y ≤ p.Y) && decide (p.Y < r.Max.Y)

/-- Go `Point.Sub`. -/
def Point.Sub (p q : Point) : Point := { X := p.X - q.X, Y := p.Y - q.Y }

/-- Go `Point.Add`. -/
def Point.Add (p q : Point) : Point := { X := p.X + q.X, Y := p.Y + q.Y }

/-- Go `Rectangle.Add`: the rectangle translated by `p`. -/
def Rectangle.Add (r : Rectangle) (p : Point) : Rectangle :=
  { Min := r.Min.Add p, Max := r.Max.Add p }

/-- Go `image.ZR`, the zero rectangle. -/
def ZR : Rectangle := { Min := { X := 0, Y := 0 }, Max := { X := 0, Y := 0 } }

/-- Go `Rectangle.Intersect`: the largest rectangle contained in both, the
zero rectangle when they do not overlap. -/
def Rectangle.Intersect (r s : Rectangle) : Rectangle :=
  let r : Rectangle :=
    { Min := { X := if r.Min.X < s.Min.X then s.Min.X else r.Min.X,
               Y := if r.Min.Y < s.Min.Y then s.Min.Y else r.Min.Y },
      Max := { X := if r.Max.X > s.Max.X then s.Max.X else r.Max.X,
               Y := if r.Max.Y > s.Max.Y then s.Max.Y else r.Max.Y } }
  if r.Empty then ZR else r

/-- The four values returned by the method `RGBA()` of a Go `color.Color`:
alpha-premultiplied 16-bit components held in `uint32`s. -/
structure Color where
  R : Nat
  G : Nat
  B : Nat
  A : Nat
  deriving DecidableEq, Repr

/-- Go `color.RGBA`: four 8-bit components. -/
structure RGBAColor where
  R : Fin 256
  G : Fin 256
  B : Fin 256
  A : Fin 256
  deriving DecidableEq, Repr

/-- The method `RGBA()` of Go `color.RGBA`: each component `c` becomes
`c | c << 8`, that is `c * 257`. -/
def RGBAColor.RGBA (c : RGBAColor) : Color :=
  { R := c.R.val * 257, G := c.G.val * 257, B := c.B.val * 257, A := c.A.val * 257 }

/-- The conversion to `color.RGBA` that `draw.Draw` applies when it stores a
source colour in an `*image.RGBA`: `uint8(c >> 8)` on each component. -/
def toRGBA (c : Color) : RGBAColor :=
  { R := Fin.ofNat (c.R / 256), G := Fin.ofNat (c.G / 256),
    B := Fin.ofNat (c.B / 256), A := Fin.ofNat (c.A / 256) }

/-- Go `image.Image`, seen through its interface: the bounds and, for every
position, the `RGBA()` value of the colour `At` returns. -/
structure Image where
  Bounds : Rectangle
  At : Int → Int → Color

/-- Go `*image.RGBA`: the rectangle and the pixel store, read by position.
Only the pixels inside `Rect` exist.  The store of an image held in memory has
`4 * Dx * Dy` bytes, a length `image.NewRGBA` accepts: field `alloc`. -/
structure RGBA where
  Rect : Rectangle
  Pix : Int → Int → RGBAColor
  alloc : Allocable Rect

/-- The method `At` of `*image.RGBA`: the stored pixel inside the bounds, the
zero colour `color.RGBA{}` outside. -/
def RGBA.At (p : RGBA) (x y : Int) : RGBAColor :=
  if (Point.mk x y).In p.Rect then p.Pix x y else { R := 0, G := 0, B := 0, A := 0 }

/-- An `*image.RGBA` used as an `image.Image`. -/
def RGBA.toImage (p : RGBA) : Image :=
  { Bounds := p.Rect, At := fun x y => (p.At x y).RGBA }

/-- Go `image.NewRGBA`: an image with the given bounds, every pixel zero.
It panics when `pixelBufferLength` finds the dimensions negative or the
buffer length `4 * Dx * Dy` beyond `int`.  (How much memory the Go runtime has
at hand is not modelled: a buffer whose length is an `int` is taken to be
allocated.) -/
def NewRGBA (r : Rectangle) : Except String RGBA :=
  if h : Allocable r then
    .ok { Rect := r, Pix := fun _ _ => { R := 0, G := 0, B := 0, A := 0 }, alloc := h }
  else
    .error "image: NewRGBA Rectangle has huge or negative dimensions"

/-- Go `&image.Uniform{c}`: an image of unbounded extent
(`-1e9 … 1e9` in both axes) and one colour. -/
def Uniform (c : Color) : Image :=
  { Bounds := { Min := { X := -1000000000, Y := -1000000000 },
                Max := { X := 1000000000, Y := 1000000000 } },
    At := fun _ _ => c }

/-- Go `color.Black`, `color.Gray16{0}`, through `RGBA()`. -/
def black : Color := { R := 0, G := 0, B := 0, A := 65535 }

/-- Go `color.White`, `color.Gray16{0xffff}`, through `RGBA()`. -/
def white : Color := { R := 65535, G := 65535, B := 65535, A := 65535 }

/-- The clipping step of `draw.Draw` (`clip` in `image/draw`, no mask): the
destination rectangle is cut down to the bounds of the destination and to the
bounds of the source translated by `r.Min - sp`. -/
def clip (dst : RGBA) (r : Rectangle) (src : Image) (sp : Point) : Rectangle :=
  let orig := r.Min
  let r := r.Intersect dst.Rect
  r.Intersect (src.Bounds.Add (orig.Sub sp))

/-- Go `draw.Draw(dst, r, src, sp, draw.Src)` for an `*image.RGBA`
destination: every pixel of the clipped rectangle is replaced by the source
pixel that `sp` aligns with `r.Min`, converted to `color.RGBA`; no other pixel
changes. -/
def Draw (dst : RGBA) (r : Rectangle) (src : Image) (sp : Point) : RGBA :=
  let rc := clip dst r src sp
  { Rect := dst.Rect,
    Pix := fun x y =>
      if (Point.mk x y).In rc then toRGBA (src.At (sp.X + (x - r.Min.X)) (sp.Y + (y - r.Min.Y)))
      else dst.Pix x y,
    alloc := dst.alloc }

/-- The constant `w` of `FixImage`: each module of the QR code is 9x9 pixels. -/
def w : Int := 9

/-- The constant `w2` of `FixImage`. -/
def w2 : Int := w * 2

/-- The constant `w5` of `FixImage`. -/
def w5 : Int := w * 5

/-- The constant `w6` of `FixImage`. -/
def w6 : Int := w * 6

/-- The constant `w7` of `FixImage`. -/
def w7 : Int := w * 7

/-- The rectangle of the first `draw.Draw` of the loop body of `FixImage`. -/
def outerSquare (rect : Point) : Rectangle :=
  Rect rect.X rect.Y (rect.X + w7) (rect.Y + w7)

/-- The rectangle of the second `draw.Draw` of the loop body of `FixImage`. -/
def middleSquare (rect : Point) : Rectangle :=
  Rect (rect.X + w) (rect.Y + w) (rect.X + w6) (rect.Y + w6)

/-- The rectangle of the third `draw.Draw` of the loop body of `FixImage`. -/
def coreSquare (rect : Point) : Rectangle :=
  Rect (rect.X + w2) (rect.Y + w2) (rect.X + w5) (rect.Y + w5)

/-- The anchor origins `FixImage` iterates over. -/
def anchors : List Point :=
  [{ X := 18, Y := 18 }, { X := 18, Y := 216 }, { X := 216, Y := 18 }]

/-- The loop body of `FixImage`: three draws, black, white, black. -/
def fixAnchor (newImg : RGBA) (rect : Point) : RGBA :=
  let newImg := Draw newImg (outerSquare rect) (Uniform black) { X := 0, Y := 0 }
  let newImg := Draw newImg (middleSquare rect) (Uniform white) { X := 0, Y := 0 }
  Draw newImg (coreSquare rect) (Uniform black) { X := 0, Y := 0 }

/-- The function `FixImage` of `quick-response-code/main.go`.  A panic of
`image.NewRGBA` aborts the call. -/
def FixImage (img : Image) : Except String RGBA :=
  let bounds := img.Bounds
  match NewRGBA bounds with
  | .error msg => .error msg
  | .ok newImg =>
    let newImg := Draw newImg bounds img bounds.Min
    .ok (anchors.foldl fixAnchor newImg)

/-- The pixel `draw.Draw` stores for `color.Black`. -/
def dark : RGBAColor := { R := 0, G := 0, B := 0, A := 255 }

/-- The pixel `draw.Draw` stores for `color.White`. -/
def light : RGBAColor := { R := 255, G := 255, B := 255, A := 255 }

/-- The position `(x, y)` lies in the 63x63-pixel anchor square of origin `o`. -/
def inAnchor (o : Point) (x y : Int) : Prop :=
  o.X ≤ x ∧ x < o.X + 63 ∧ o.Y ≤ y ∧ y < o.Y + 63

instance (o : Point) (x y : Int) : Decidable (inAnchor o x y) := by
  unfold inAnchor; infer_instance

/-- The canonical finder pattern as the specification words it, by offset
`(dx, dy)` from the anchor origin: dark in the outer ring one module (9 px)
wide, dark in the central core of 3x3 modules (offsets 18..44 in both axes),
light in the ring between the two. -/
def finderPixel (dx dy : Int) : RGBAColor :=
  if dx < 9 ∨ 54 ≤ dx ∨ dy < 9 ∨ 54 ≤ dy then dark
  else if 18 ≤ dx ∧ dx ≤ 44 ∧ 18 ≤ dy ∧ dy ≤ 44 then dark
  else light

/-- The pattern `regexpKey` (`\/.*$`) tried at the start of `s`: a `/`, then
`.*` (any characters but the line feed) up to `$`, the end of the text (the
pattern carries no `m` flag).  The match, when there is one, is all of `s`. -/
def regexpKeyMatch : List Char → Bool
  | [] => false
  | c :: rest => decide (c = '/') && rest.all (fun d => decide (d ≠ Char.ofNat 10))

/-- The call `regexpKey.FindString` on the characters of a text: the leftmost
match, the empty text when there is none. -/
def regexpKeyFindString : List Char → List Char
  | [] => []
  | c :: rest => if regexpKeyMatch (c :: rest) then c :: rest else regexpKeyFindString rest

/-- The key `Solve` submits for the decoded text `text`:
`regexpKey.FindString(qrCode.GetText())`. -/
def Key (text : String) : String := String.mk (regexpKeyFindString text.data)

/-- A 300x300 test image: an RGBA grid whose pixel at `(x, y)` has red
component `x mod 256` and green component `y mod 256`. -/
def sampleImage : RGBA :=
  { Rect := Rect 0 0 300 300,
    Pix := fun x y => { R := Fin.ofNat x.toNat, G := Fin.ofNat y.toNat, B := 7, A := 255 },
    alloc := by decide }

end QuickResponseCode

/-! ## IEEE 754 binary floating point (Go `float32`, `float64`) -/

/-- An IEEE 754 binary interchange format: the precision (number of
significand bits, hidden bit included) and the exponent range of the normal
numbers. -/
structure FloatFormat where
  prec : Nat
  emin : Int
  emax : Int

/-- Go `float32`. -/
def binary32 : FloatFormat := { prec := 24, emin := -126, emax := 127 }

/-- Go `float64`. -/
def binary64 : FloatFormat := { prec := 53, emin := -1022, emax := 1023 }

/-- A floating-point datum: a NaN, an infinity, or a finite number given by
its sign bit and its magnitude (so that the two zeros are distinct). -/
inductive FloatVal where
  | nan : FloatVal
  | inf (neg : Bool) : FloatVal
  | fin (neg : Bool) (mag : ℚ) : FloatVal
  deriving DecidableEq

/-- Rounding of a rational to the nearest integer, ties to the even one. -/
def roundHalfEven (x : ℚ) : Int :=
  if x - ⌊x⌋ < 1 / 2 then ⌊x⌋
  else if 1 / 2 < x - ⌊x⌋ then ⌊x⌋ + 1
  else if ⌊x⌋ % 2 = 0 then ⌊x⌋
  else ⌊x⌋ + 1

/-- The unit in the last place of the format at magnitude `x`: `2^(e-prec+1)`
where `e` is the binary exponent of `x`, not below `emin` (below it the
numbers are subnormal and equally spaced). -/
def FloatFormat.ulp (F : FloatFormat) (x : ℚ) : ℚ :=
  (2 : ℚ) ^ (max (Int.log 2 x) F.emin - (F.prec : Int) + 1)

/-- The magnitude `x ≥ 0` rounded to the format, to nearest, ties to even,
the exponent being unbounded above. -/
def FloatFormat.roundMag (F : FloatFormat) (x : ℚ) : ℚ :=
  (roundHalfEven (x / F.ulp x) : ℚ) * F.ulp x

/-- The result of an operation whose exact value has sign bit `neg` and
magnitude `x`: rounded to nearest-even, infinite on overflow. -/
def FloatFormat.round (F : FloatFormat) (neg : Bool) (x : ℚ) : FloatVal :=
  if (2 : ℚ) ^ (F.emax + 1) ≤ F.roundMag x then .inf neg else .fin neg (F.roundMag x)

/-- The number a finite sign and magnitude denote. -/
def signed (neg : Bool) (mag : ℚ) : ℚ := if neg then -mag else mag

/-- Rounding of a signed rational: the magnitude is rounded, the sign kept. -/
def FloatFormat.roundSigned (F : FloatFormat) (v : ℚ) : ℚ :=
  if v < 0 then -F.roundMag |v| else F.roundMag |v|

/-- The result of an operation whose exact value is the nonzero rational `v`. -/
def FloatFormat.roundRat (F : FloatFormat) (v : ℚ) : FloatVal :=
  F.round (decide (v < 0)) |v|

namespace FloatVal

/-- Floating-point negation: the sign bit is flipped. -/
def neg : FloatVal → FloatVal
  | nan => nan
  | inf s => inf (!s)
  | fin s m => fin (!s) m

/-- Floating-point addition in format `F`.  An exact zero sum is `-0` only
when both operands are negative. -/
def add (F : FloatFormat) : FloatVal → FloatVal → FloatVal
  | nan, _ => nan
  | _, nan => nan
  | inf s, inf t => if s = t then inf s else nan
  | inf s, fin _ _ => inf s
  | fin _ _, inf t => inf t
  | fin s a, fin t b =>
    if signed s a + signed t b = 0 then fin (s && t) 0
    else F.roundRat (signed s a + signed t b)

/-- Floating-point subtraction in format `F`: `x - y = x + (-y)`. -/
def sub (F : FloatFormat) (x y : FloatVal) : FloatVal := add F x (neg y)

/-- Floating-point multiplication in format `F`. -/
def mul (F : FloatFormat) : FloatVal → FloatVal → FloatVal
  | nan, _ => nan
  | _, nan => nan
  | inf s, inf t => inf (xor s t)
  | inf s, fin t b => if b = 0 then nan else inf (xor s t)
  | fin s a, inf t => if a = 0 then nan else inf (xor s t)
  | fin s a, fin t b => F.round (xor s t) (a * b)

/-- Floating-point division in format `F`. -/
def div (F : FloatFormat) : FloatVal → FloatVal → FloatVal
  | nan, _ => nan
  | _, nan => nan
  | inf _, inf _ => nan
  | inf s, fin t _ => inf (xor s t)
  | fin s _, inf t => fin (xor s t) 0
  | fin s a, fin t b =>
    if b = 0 then (if a = 0 then nan else inf (xor s t))
    else F.round (xor s t) (a / b)

/-- Go `math.Sqrt`: the correctly rounded square root in `float64`.  For a
positive finite `m` with binary exponent `e` the root has exponent
`h = ⌊e/2⌋`; with `u = 2^(h-52)` its significand is `⌊√(m/u²)⌋` or the next
integer, whichever is nearer to `√(m/u²)` (the even one on a tie). -/
def sqrt : FloatVal → FloatVal
  | nan => nan
  | inf s => if s then nan else inf false
  | fin s m =>
    if m = 0 then fin s 0
    else if s then nan
    else
      let u : ℚ := (2 : ℚ) ^ (Int.log 2 m / 2 - 52)
      let t : ℚ := m / (u * u)
      let k : Nat := Nat.sqrt ⌊t⌋₊
      let n : Nat :=
        if t < ((k : ℚ) + 1 / 2) * ((k : ℚ) + 1 / 2) then k
        else if ((k : ℚ) + 1 / 2) * ((k : ℚ) + 1 / 2) < t then k + 1
        else if k % 2 = 0 then k
        else k + 1
      fin false ((n : ℚ) * u)

/-- The comparison `x < y` of Go; false when an operand is a NaN. -/
def lt : FloatVal → FloatVal → Bool
  | nan, _ => false
  | _, nan => false
  | inf s, inf t => s && !t
  | inf s, fin _ _ => s
  | fin _ _, inf t => !t
  | fin s a, fin t b => decide (signed s a < signed t b)

/-- The comparison `x == y` of Go; false when an operand is a NaN, true on
the two zeros. -/
def eq : FloatVal → FloatVal → Bool
  | nan, _ => false
  | _, nan => false
  | inf s, inf t => s == t
  | inf _, fin _ _ => false
  | fin _ _, inf _ => false
  | fin s a, fin t b => decide (signed s a = signed t b)

/-- The comparison `x > y` of Go. -/
def gt (x y : FloatVal) : Bool := lt y x

/-- The comparison `x >= y` of Go. -/
def ge (x y : FloatVal) : Bool := lt y x || eq x y

/-- The conversion of a Go integer to the format `F` (`float32(i)`,
`float64(i)`). -/
def ofInt (F : FloatFormat) (i : Int) : FloatVal :=
  F.round (decide (i < 0)) |(i : ℚ)|

/-- The floating-point constant `0`. -/
def zero : FloatVal := fin false 0

/-- The floating-point constant `2`. -/
def two : FloatVal := fin false 2

end FloatVal

namespace SecondDegree

/-- The record `Challenge` of `second-degree-polynomial-solver/main.go`. -/
structure Challenge where
  A : Int
  B : Int
  C : Int
  deriving DecidableEq, Repr

/-- The record `Solution` of `second-degree-polynomial-solver/main.go`:
`Roots []float64`. -/
structure Solution where
  Roots : List FloatVal

/-- The function `Solve` of `second-degree-polynomial-solver/main.go`.  The
discriminant is computed in `int`, converted to `float32` and compared with
zero; the conversion `float64(discriminant)` of a `float32` is exact. -/
def Solve (ch : Challenge) : Solution :=
  let discriminant :=
    FloatVal.ofInt binary32 (sub64 (mul64 ch.B ch.B) (mul64 (mul64 4 ch.A) ch.C))
  if discriminant.gt FloatVal.zero then
    let sqrtD := FloatVal.sqrt discriminant
    { Roots :=
        [ FloatVal.div binary64
            (FloatVal.add binary64 (FloatVal.neg (FloatVal.ofInt binary64 ch.B)) sqrtD)
            (FloatVal.mul binary64 FloatVal.two (FloatVal.ofInt binary64 ch.A)),
          FloatVal.div binary64
            (FloatVal.sub binary64 (FloatVal.neg (FloatVal.ofInt binary64 ch.B)) sqrtD)
            (FloatVal.mul binary64 FloatVal.two (FloatVal.ofInt binary64 ch.A)) ] }
  else if discriminant.eq FloatVal.zero then
    { Roots :=
        [ FloatVal.div binary64 (FloatVal.ofInt binary64 (neg64 ch.B))
            (FloatVal.mul binary64 FloatVal.two (FloatVal.ofInt binary64 ch.A)) ] }
  else
    { Roots := [] }

/-- The first root as the specification words it, `(-B + √D) / 2A` with
`D = B² - 4AC`, evaluated in floating point the way `Solve` does: `D` as a
`float32`, everything else in `float64`. -/
def rootPlus (ch : Challenge) : FloatVal :=
  FloatVal.div binary64
    (FloatVal.add binary64 (FloatVal.neg (FloatVal.ofInt binary64 ch.B))
      (FloatVal.sqrt (FloatVal.ofInt binary32 (ch.B * ch.B - 4 * ch.A * ch.C))))
    (FloatVal.mul binary64 FloatVal.two (FloatVal.ofInt binary64 ch.A))

/-- The second root as the specification words it, `(-B - √D) / 2A`. -/
def rootMinus (ch : Challenge) : FloatVal :=
  FloatVal.div binary64
    (FloatVal.sub binary64 (FloatVal.neg (FloatVal.ofInt binary64 ch.B))
      (FloatVal.sqrt (FloatVal.ofInt binary32 (ch.B * ch.B - 4 * ch.A * ch.C))))
    (FloatVal.mul binary64 FloatVal.two (FloatVal.ofInt binary64 ch.A))

/-- The decimal numeral of `n`, most significant digit first: the last digit
is `n % 10`, preceded, when `n ≥ 10`, by the numeral of `n / 10`.  The first
argument bounds the number of digits. -/
def natDigitsAux : Nat → Nat → List Char
  | 0, _ => []
  | fuel + 1, n =>
    if n < 10 then [Nat.digitChar n]
    else natDigitsAux fuel (n / 10) ++ [Nat.digitChar (n % 10)]

/-- The decimal numeral of a natural number (it has at most `n + 1` digits). -/
def natDigits (n : Nat) : List Char := natDigitsAux (n + 1) n

/-- The three fraction digits of `r` thousandths. -/
def fracDigits (r : Nat) : List Char :=
  [Nat.digitChar (r / 100), Nat.digitChar (r / 10 % 10), Nat.digitChar (r % 10)]

/-- The sign `fmt` prints for a finite number: `-` when the sign bit is set. -/
def signChars (neg : Bool) : List Char := if neg then ['-'] else []

/-- Go `fmt.Sprintf("%.3f", f)`: the exact value of `f` rounded to three
decimals, to nearest, ties to even; `NaN`, `+Inf` and `-Inf` for the special
values. -/
def Sprintf3 : FloatVal → List Char
  | .nan => ['N', 'a', 'N']
  | .inf false => ['+', 'I', 'n', 'f']
  | .inf true => ['-', 'I', 'n', 'f']
  | .fin s m =>
    signChars s ++ natDigits ((roundHalfEven (m * 1000)).toNat / 1000) ++
      '.' :: fracDigits ((roundHalfEven (m * 1000)).toNat % 1000)

/-- Go `strings.TrimRight(s, cutset)` for a one-character cutset: the
trailing occurrences of the character are removed. -/
def TrimRight (s : List Char) (c : Char) : List Char :=
  s.rdropWhile (fun d => d == c)

/-- The function `format` of `second-degree-polynomial-solver/main.go`. -/
def format (f : FloatVal) : String :=
  String.mk (TrimRight (TrimRight (Sprintf3 f) '0') '.')

/-- The natural number a string of decimal digits denotes. -/
def parseNat (cs : List Char) : Nat :=
  cs.foldl (fun acc c => 10 * acc + (c.toNat - 48)) 0

/-- The rational number an unsigned decimal `ddd` or `ddd.ddd` denotes. -/
def parseDecimal (cs : List Char) : ℚ :=
  (parseNat (cs.takeWhile (fun c => c != '.')) : ℚ) +
    (parseNat ((cs.dropWhile (fun c => c != '.')).drop 1) : ℚ) /
      (10 : ℚ) ^ ((cs.dropWhile (fun c => c != '.')).drop 1).length

/-- The `float64` a string denotes (Go `strconv.ParseFloat(s, 64)` on the
strings `format` produces): the special values by name, otherwise the decimal
rounded to the nearest `float64`, with the sign written. -/
def parseFloat (cs : List Char) : FloatVal :=
  if cs = ['N', 'a', 'N'] then .nan
  else if cs = ['+', 'I', 'n', 'f'] then .inf false
  else if cs = ['-', 'I', 'n', 'f'] then .inf true
  else if cs.head? = some '-' then binary64.round true (parseDecimal cs.tail)
  else binary64.round false (parseDecimal cs)

/-- The data of type `float64`: NaN, the infinities, and the finite numbers
whose magnitude is a value of the format. -/
def IsFloat64 : FloatVal → Prop
  | .fin _ m => 0 ≤ m ∧ binary64.roundMag m = m ∧ m < (2 : ℚ) ^ (1024 : Int)
  | _ => True

end SecondDegree

/-! ## Theorems: arithmetic progression -/

namespace ArithmeticProgression

theorem foldlM_range_succ (challenge : Challenge) (k : Nat) :
    (List.range (k + 1)).foldlM (solveStep challenge) challenge.ZeroElement =
      (List.range k).foldlM (solveStep challenge) challenge.ZeroElement >>=
        fun u => solveStep challenge u k := by
  rw [List.range_succ, List.foldlM_append]
  simp

theorem foldlM_recognised (challenge : Challenge)
    (hs : challenge.Sign = '+' ∨ challenge.Sign = '-') (k : Nat) :
    (List.range k).foldlM (solveStep challenge) challenge.ZeroElement =
      .ok (U challenge.ZeroElement challenge.A challenge.B
        (decide (challenge.Sign = '+')) k) := by
  induction k with
  | zero => rfl
  | succ k ih =>
    rw [foldlM_range_succ, ih]
    rcases hs with h | h
    · simp [solveStep, U, h, bind, Except.bind]
    · simp [solveStep, U, h, bind, Except.bind]

theorem foldlM_unrecognised (challenge : Challenge)
    (hp : challenge.Sign ≠ '+') (hm : challenge.Sign ≠ '-') (k : Nat) :
    (List.range (k + 1)).foldlM (solveStep challenge) challenge.ZeroElement =
      .error "invalid sign" := by
  induction k with
  | zero => simp [solveStep, hp, hm, List.range_succ, List.foldlM]
  | succ k ih =>
    rw [foldlM_range_succ, ih]
    rfl

theorem solve_good (challenge : Challenge)
    (hs : challenge.Sign = '+' ∨ challenge.Sign = '-') :
    Solve challenge =
      .ok { Un := U challenge.ZeroElement challenge.A challenge.B
              (decide (challenge.Sign = '+')) challenge.N.toNat,
            cookies := challenge.cookies } := by
  simp only [Solve, foldlM_recognised challenge hs]

/-- C1. For every challenge with sign `+` or `-` and `N ≥ 0`, `Solve`
returns `Un = U[N]`, where `U[0] = zeroElement` and
`U[n+1] = (A + U[n]) ± n*B` in 64-bit signed arithmetic; for `N = 0` it
returns `zeroElement` unchanged; and the challenge
`(zeroElement=1, A=2, B=3, sign='+', N=3)` returns 16. -/
theorem solve_eq_recurrence (challenge : Challenge)
    (hs : challenge.Sign = '+' ∨ challenge.Sign = '-') (_hN : 0 ≤ challenge.N) :
    Solve challenge =
        .ok { Un := U challenge.ZeroElement challenge.A challenge.B
                (decide (challenge.Sign = '+')) challenge.N.toNat,
              cookies := challenge.cookies } ∧
      (challenge.N = 0 →
        Solve challenge = .ok { Un := challenge.ZeroElement, cookies := challenge.cookies }) ∧
      Solve { ZeroElement := 1, A := 2, B := 3, Sign := '+', N := 3, cookies := [] } =
        .ok { Un := 16, cookies := [] } := by
  have key := foldlM_recognised challenge hs challenge.N.toNat
  refine ⟨solve_good challenge hs, ?_, by rfl⟩
  · intro h0
    simp only [Solve, key, h0]
    rfl

theorem solve_eq_recurrence_witness :
    (('-' : Char) = '+' ∨ ('-' : Char) = '-') ∧ (0 : Int) ≤ 4 ∧
      Solve { ZeroElement := 7, A := -2, B := 5, Sign := '-', N := 4, cookies := ["c"] } =
        .ok { Un := U 7 (-2) 5 false 4, cookies := ["c"] } :=
  ⟨by decide, by decide,
    (solve_eq_recurrence
      { ZeroElement := 7, A := -2, B := 5, Sign := '-', N := 4, cookies := ["c"] }
      (by decide) (by decide)).1⟩

/-- C10, as stated, fails: with the unrecognised sign `*` and `N = 0` the
loop body never runs and `Solve` returns `zeroElement` instead of aborting. -/
theorem solve_unrecognised_sign_no_abort :
    (('*' : Char) ≠ '+' ∧ ('*' : Char) ≠ '-') ∧
      Solve { ZeroElement := 5, A := 2, B := 3, Sign := '*', N := 0, cookies := [] } =
        .ok { Un := 5, cookies := [] } :=
  ⟨by decide, by rfl⟩

/-- C10, amended. `Solve` aborts, with the message `invalid sign`, if and
only if the sign is neither `+` nor `-` and `N ≥ 1`; in every other case it
returns a solution (for `N ≤ 0` the term `zeroElement`, whatever the sign). -/
theorem solve_abort_iff (challenge : Challenge) :
    (Solve challenge = .error "invalid sign" ↔
        (challenge.Sign ≠ '+' ∧ challenge.Sign ≠ '-') ∧ 1 ≤ challenge.N) ∧
      ((∃ msg, Solve challenge = .error msg) ↔
        (challenge.Sign ≠ '+' ∧ challenge.Sign ≠ '-') ∧ 1 ≤ challenge.N) ∧
      (challenge.N ≤ 0 →
        Solve challenge = .ok { Un := challenge.ZeroElement, cookies := challenge.cookies }) := by
  have hle : challenge.N ≤ 0 →
      Solve challenge = .ok { Un := challenge.ZeroElement, cookies := challenge.cookies } := by
    intro h
    have h0 : challenge.N.toNat = 0 := Int.toNat_eq_zero.mpr h
    simp only [Solve, h0]
    rfl
  have hbad : (challenge.Sign ≠ '+' ∧ challenge.Sign ≠ '-') ∧ 1 ≤ challenge.N →
      Solve challenge = .error "invalid sign" := by
    rintro ⟨⟨hp, hm⟩, hN⟩
    obtain ⟨k, hk⟩ : ∃ k, challenge.N.toNat = k + 1 :=
      ⟨challenge.N.toNat - 1, by omega⟩
    simp only [Solve, hk, foldlM_unrecognised challenge hp hm k]
  have hgood : ¬ ((challenge.Sign ≠ '+' ∧ challenge.Sign ≠ '-') ∧ 1 ≤ challenge.N) →
      ∃ s, Solve challenge = .ok s := by
    intro h
    by_cases hs : challenge.Sign = '+' ∨ challenge.Sign = '-'
    · exact ⟨_, (solve_good challenge hs)⟩
    · have hN : challenge.N ≤ 0 := by
        by_contra hN
        exact h ⟨⟨fun e => hs (Or.inl e), fun e => hs (Or.inr e)⟩, by omega⟩
      exact ⟨_, hle hN⟩
  refine ⟨⟨fun h => ?_, hbad⟩, ⟨fun h => ?_, fun h => ⟨_, hbad h⟩⟩, hle⟩
  · by_contra hc
    obtain ⟨s, hs⟩ := hgood hc
    rw [hs] at h
    cases h
  · by_contra hc
    obtain ⟨s, hs⟩ := hgood hc
    obtain ⟨msg, hmsg⟩ := h
    rw [hs] at hmsg
    cases hmsg

theorem solve_abort_iff_witness :
    Solve { ZeroElement := 5, A := 2, B := 3, Sign := '*', N := 2, cookies := [] } =
        .error "invalid sign" ∧
      Solve { ZeroElement := 5, A := 2, B := 3, Sign := '*', N := -1, cookies := [] } =
        .ok { Un := 5, cookies := [] } :=
  ⟨(solve_abort_iff
      { ZeroElement := 5, A := 2, B := 3, Sign := '*', N := 2, cookies := [] }).1.mpr
      ⟨⟨by decide, by decide⟩, by decide⟩,
    (solve_abort_iff
      { ZeroElement := 5, A := 2, B := 3, Sign := '*', N := -1, cookies := [] }).2.2
      (by decide)⟩

end ArithmeticProgression

/-! ## Theorems: QR image repair and key extraction -/

namespace QuickResponseCode

theorem in_iff (p : Point) (r : Rectangle) :
    p.In r = true ↔ r.Min.X ≤ p.X ∧ p.X < r.Max.X ∧ r.Min.Y ≤ p.Y ∧ p.Y < r.Max.Y := by
  simp [Point.In, and_assoc]

theorem in_intersect (p : Point) (r s : Rectangle) :
    p.In (r.Intersect s) = true ↔ p.In r = true ∧ p.In s = true := by
  simp only [Rectangle.Intersect, Rectangle.Empty, ZR, in_iff, Bool.or_eq_true,
    decide_eq_true_eq]
  split_ifs <;> simp only [] <;> omega

theorem component_roundtrip (c : Fin 256) : (Fin.ofNat (c.val * 257 / 256) : Fin 256) = c := by
  have h := c.isLt
  have e : c.val * 257 / 256 = c.val := by
    rw [show c.val * 257 = c.val + 256 * c.val by ring,
      Nat.add_mul_div_left _ _ (by norm_num), Nat.div_eq_of_lt h, zero_add]
  apply Fin.ext
  simp only [Fin.ofNat, e]
  exact Nat.mod_eq_of_lt h

theorem toRGBA_RGBA (c : RGBAColor) : toRGBA c.RGBA = c := by
  obtain ⟨r, g, b, a⟩ := c
  simp only [toRGBA, RGBAColor.RGBA, RGBAColor.mk.injEq]
  exact ⟨component_roundtrip r, component_roundtrip g, component_roundtrip b,
    component_roundtrip a⟩

theorem toRGBA_black : toRGBA black = dark := by decide

theorem toRGBA_white : toRGBA white = light := by decide

theorem draw_rect (dst : RGBA) (r : Rectangle) (src : Image) (sp : Point) :
    (Draw dst r src sp).Rect = dst.Rect := rfl

theorem draw_at (dst : RGBA) (r : Rectangle) (src : Image) (sp : Point) (x y : Int) :
    (Draw dst r src sp).At x y =
      if (Point.mk x y).In r = true ∧ (Point.mk x y).In dst.Rect = true ∧
          (Point.mk x y).In (src.Bounds.Add (r.Min.Sub sp)) = true then
        toRGBA (src.At (sp.X + (x - r.Min.X)) (sp.Y + (y - r.Min.Y)))
      else dst.At x y := by
  simp only [RGBA.At, Draw, clip]
  by_cases hd : (Point.mk x y).In dst.Rect = true
  · by_cases hr : (Point.mk x y).In r = true
    · by_cases hs : (Point.mk x y).In (src.Bounds.Add (r.Min.Sub sp)) = true
      · have : (Point.mk x y).In ((r.Intersect dst.Rect).Intersect
            (src.Bounds.Add (r.Min.Sub sp))) = true := by
          simp only [in_intersect]; exact ⟨⟨hr, hd⟩, hs⟩
        simp [hd, hr, hs, this]
      · have : ¬ (Point.mk x y).In ((r.Intersect dst.Rect).Intersect
            (src.Bounds.Add (r.Min.Sub sp))) = true := by
          simp only [in_intersect]; tauto
        simp [hd, hr, hs, this]
    · have : ¬ (Point.mk x y).In ((r.Intersect dst.Rect).Intersect
          (src.Bounds.Add (r.Min.Sub sp))) = true := by
        simp only [in_intersect]; tauto
      simp [hd, hr, this]
  · have : ¬ (Point.mk x y).In ((r.Intersect dst.Rect).Intersect
        (src.Bounds.Add (r.Min.Sub sp))) = true := by
      simp only [in_intersect]; tauto
    simp [hd, this]

theorem fixAnchor_rect (im : RGBA) (a : Point) : (fixAnchor im a).Rect = im.Rect := rfl

theorem fixAnchor_at (im : RGBA) (a : Point) (x y : Int) :
    (fixAnchor im a).At x y =
      if (Point.mk x y).In im.Rect = true ∧ inAnchor a x y then
        finderPixel (x - a.X) (y - a.Y)
      else im.At x y := by
  simp only [fixAnchor, draw_at, draw_rect, Uniform, toRGBA_black, toRGBA_white]
  simp only [in_iff, outerSquare, middleSquare, coreSquare, Rect, w, w2, w5, w6, w7,
    Rectangle.Add, Point.Add, Point.Sub, inAnchor, finderPixel]
  have e1 : ¬ (a.X > a.X + 9 * 7) := by omega
  have e2 : ¬ (a.Y > a.Y + 9 * 7) := by omega
  have e3 : ¬ (a.X + 9 > a.X + 9 * 6) := by omega
  have e4 : ¬ (a.Y + 9 > a.Y + 9 * 6) := by omega
  have e5 : ¬ (a.X + 9 * 2 > a.X + 9 * 5) := by omega
  have e6 : ¬ (a.Y + 9 * 2 > a.Y + 9 * 5) := by omega
  simp only [e1, e2, e3, e4, e5, e6, if_false]
  by_cases hd : (im.Rect.Min.X ≤ x ∧ x < im.Rect.Max.X ∧ im.Rect.Min.Y ≤ y ∧ y < im.Rect.Max.Y)
  · split_ifs <;> first | rfl | (exfalso; omega)
  · split_ifs <;> first | rfl | (exfalso; omega)

theorem newRGBA_ok (r : Rectangle) (h : Allocable r) :
    NewRGBA r =
      .ok { Rect := r, Pix := fun _ _ => { R := 0, G := 0, B := 0, A := 0 }, alloc := h } :=
  dif_pos h

theorem newRGBA_error (r : Rectangle) (h : ¬ Allocable r) :
    NewRGBA r = .error "image: NewRGBA Rectangle has huge or negative dimensions" :=
  dif_neg h

/-- With bounds `image.NewRGBA` accepts, `FixImage` returns the copy of the
input with the three anchors drawn over it. -/
theorem fixImage_ok (img : Image) (h : Allocable img.Bounds) :
    FixImage img =
      .ok (anchors.foldl fixAnchor
        (Draw { Rect := img.Bounds, Pix := fun _ _ => { R := 0, G := 0, B := 0, A := 0 },
                alloc := h } img.Bounds img img.Bounds.Min)) := by
  simp only [FixImage, newRGBA_ok _ h]

/-- With other bounds `FixImage` panics. -/
theorem fixImage_error (img : Image) (h : ¬ Allocable img.Bounds) :
    FixImage img = .error "image: NewRGBA Rectangle has huge or negative dimensions" := by
  simp only [FixImage, newRGBA_error _ h]

theorem allocable_of_fixImage (img : Image) (out : RGBA) (h : FixImage img = .ok out) :
    Allocable img.Bounds := by
  by_contra hn
  rw [fixImage_error img hn] at h
  cases h

/-- The bounds and the pixels of the bitmap `FixImage img` returns, position
by position. -/
theorem fixImage_at (img : Image) (out : RGBA) (h : FixImage img = .ok out) (x y : Int) :
    out.Rect = img.Bounds ∧
    out.At x y =
      if (Point.mk x y).In img.Bounds = true then
        if inAnchor { X := 216, Y := 18 } x y then finderPixel (x - 216) (y - 18)
        else if inAnchor { X := 18, Y := 216 } x y then finderPixel (x - 18) (y - 216)
        else if inAnchor { X := 18, Y := 18 } x y then finderPixel (x - 18) (y - 18)
        else toRGBA (img.At x y)
      else { R := 0, G := 0, B := 0, A := 0 } := by
  have ha := allocable_of_fixImage img out h
  rw [fixImage_ok img ha] at h
  injection h with h
  subst h
  refine ⟨rfl, ?_⟩
  have hadd : img.Bounds.Add (img.Bounds.Min.Sub img.Bounds.Min) = img.Bounds := by
    simp [Rectangle.Add, Point.Add, Point.Sub]
  simp only [anchors, List.foldl, fixAnchor_at, fixAnchor_rect, draw_at, draw_rect,
    hadd, add_sub_cancel]
  simp only [RGBA.At]
  by_cases hd : (Point.mk x y).In img.Bounds = true
  · simp [hd]
  · simp [hd]

/-- C5. For every grid `img` of RGBA pixels and every position inside its
bounds that lies outside the three 63x63 anchor squares of origins `(18,18)`,
`(18,216)` and `(216,18)`, `FixImage img` returns a bitmap whose pixel there is
the pixel of `img` there; the output has the bounds of the input. -/
theorem fixImage_frame (img : RGBA) (x y : Int)
    (hin : (Point.mk x y).In img.Rect = true)
    (h1 : ¬ inAnchor { X := 18, Y := 18 } x y)
    (h2 : ¬ inAnchor { X := 18, Y := 216 } x y)
    (h3 : ¬ inAnchor { X := 216, Y := 18 } x y) :
    ∃ out, FixImage img.toImage = .ok out ∧ out.At x y = img.At x y ∧
      out.Rect = img.Rect := by
  have hb : img.toImage.Bounds = img.Rect := rfl
  have ha : Allocable img.toImage.Bounds := by rw [hb]; exact img.alloc
  refine ⟨_, fixImage_ok img.toImage ha, ?_, ?_⟩
  · rw [(fixImage_at img.toImage _ (fixImage_ok img.toImage ha) x y).2, hb, if_pos hin,
      if_neg h3, if_neg h2, if_neg h1]
    exact toRGBA_RGBA _
  · exact (fixImage_at img.toImage _ (fixImage_ok img.toImage ha) x y).1

theorem fixImage_frame_witness :
    ∃ out, FixImage sampleImage.toImage = .ok out ∧
      out.At 100 150 = sampleImage.At 100 150 ∧ out.Rect = sampleImage.Rect :=
  fixImage_frame sampleImage 100 150 (by decide) (by decide) (by decide) (by decide)

theorem uniform_contains_anchors (c : Color) :
    ∀ o ∈ anchors, ∀ x y, inAnchor o x y → (Point.mk x y).In (Uniform c).Bounds = true := by
  intro o ho x y h
  simp only [anchors, List.mem_cons, List.mem_singleton, List.not_mem_nil, or_false] at ho
  rw [in_iff]
  unfold inAnchor at h
  rcases ho with rfl | rfl | rfl <;> simp only [Uniform] at * <;> omega

theorem uniform_not_allocable (c : Color) : ¬ Allocable (Uniform c).Bounds := by
  have h : ¬ Allocable { Min := { X := -1000000000, Y := -1000000000 },
                         Max := { X := 1000000000, Y := 1000000000 } } := by decide
  exact h

/-- C6, as stated, fails: the bounds of the image `&image.Uniform{color.Black}`
contain the three anchor squares, yet `FixImage` returns no bitmap for it: the
buffer length `4 * 2e9 * 2e9` is beyond `int` and `image.NewRGBA` panics. -/
theorem fixImage_uniform_black_panics :
    (∀ o ∈ anchors, ∀ x y, inAnchor o x y →
        (Point.mk x y).In (Uniform black).Bounds = true) ∧
      FixImage (Uniform black) =
        .error "image: NewRGBA Rectangle has huge or negative dimensions" :=
  ⟨uniform_contains_anchors black, fixImage_error _ (uniform_not_allocable black)⟩

/-- C6, amended. For every input image whose bounds contain the three anchor
squares and are bounds `image.NewRGBA` accepts (width and height not negative,
`4 * width * height` within `int`), `FixImage img` returns a bitmap and, for
each anchor origin `o` and every offset `0 ≤ dx, dy < 63`, its pixel at
`o + (dx, dy)` is the canonical finder pixel of `(dx, dy)` (dark outer ring
9 px wide, light next ring, dark core at offsets 18..44), whatever the input
held there; the three squares drawn for an anchor share one centre. -/
theorem fixImage_finder (img : Image) (ha : Allocable img.Bounds)
    (hb : ∀ o ∈ anchors, ∀ x y, inAnchor o x y → (Point.mk x y).In img.Bounds = true)
    (o : Point) (ho : o ∈ anchors) (dx dy : Int)
    (hx : 0 ≤ dx ∧ dx < 63) (hy : 0 ≤ dy ∧ dy < 63) :
    (∃ out, FixImage img = .ok out ∧
        out.At (o.X + dx) (o.Y + dy) = finderPixel dx dy) ∧
      ((outerSquare o).Min.X + (outerSquare o).Max.X =
          (middleSquare o).Min.X + (middleSquare o).Max.X ∧
        (middleSquare o).Min.X + (middleSquare o).Max.X =
          (coreSquare o).Min.X + (coreSquare o).Max.X ∧
        (outerSquare o).Min.Y + (outerSquare o).Max.Y =
          (middleSquare o).Min.Y + (middleSquare o).Max.Y ∧
        (middleSquare o).Min.Y + (middleSquare o).Max.Y =
          (coreSquare o).Min.Y + (coreSquare o).Max.Y) := by
  have hin : inAnchor o (o.X + dx) (o.Y + dy) := by
    unfold inAnchor; omega
  have hbo := hb o ho _ _ hin
  constructor
  · refine ⟨_, fixImage_ok img ha, ?_⟩
    rw [(fixImage_at img _ (fixImage_ok img ha) _ _).2, if_pos hbo]
    simp only [anchors, List.mem_cons, List.mem_singleton, List.not_mem_nil, or_false] at ho
    rcases ho with rfl | rfl | rfl
    · have n3 : ¬ inAnchor { X := 216, Y := 18 } (18 + dx) (18 + dy) := by
        unfold inAnchor; dsimp only; omega
      have n2 : ¬ inAnchor { X := 18, Y := 216 } (18 + dx) (18 + dy) := by
        unfold inAnchor; dsimp only; omega
      dsimp only at hin ⊢
      rw [if_neg n3, if_neg n2, if_pos hin, add_sub_cancel_left, add_sub_cancel_left]
    · have n3 : ¬ inAnchor { X := 216, Y := 18 } (18 + dx) (216 + dy) := by
        unfold inAnchor; dsimp only; omega
      dsimp only at hin ⊢
      rw [if_neg n3, if_pos hin, add_sub_cancel_left, add_sub_cancel_left]
    · dsimp only at hin ⊢
      rw [if_pos hin, add_sub_cancel_left, add_sub_cancel_left]
  · simp only [outerSquare, middleSquare, coreSquare, Rect, w, w2, w5, w6, w7]
    have e1 : ¬ (o.X > o.X + 9 * 7) := by omega
    have e2 : ¬ (o.Y > o.Y + 9 * 7) := by omega
    have e3 : ¬ (o.X + 9 > o.X + 9 * 6) := by omega
    have e4 : ¬ (o.Y + 9 > o.Y + 9 * 6) := by omega
    have e5 : ¬ (o.X + 9 * 2 > o.X + 9 * 5) := by omega
    have e6 : ¬ (o.Y + 9 * 2 > o.Y + 9 * 5) := by omega
    simp only [e1, e2, e3, e4, e5, e6, if_false]
    omega

theorem sampleImage_contains_anchors :
    ∀ o ∈ anchors, ∀ x y, inAnchor o x y →
      (Point.mk x y).In sampleImage.toImage.Bounds = true := by
  intro o ho x y h
  simp only [anchors, List.mem_cons, List.mem_singleton, List.not_mem_nil, or_false] at ho
  have hr : sampleImage.toImage.Bounds = Rect 0 0 300 300 := rfl
  rw [hr, in_iff]
  unfold inAnchor at h
  rcases ho with rfl | rfl | rfl <;> simp only [Rect] at * <;>
    simp only [show ¬ ((0 : Int) > 300) by decide, if_false] <;> omega

theorem fixImage_finder_witness :
    ∃ out, FixImage sampleImage.toImage = .ok out ∧
      out.At (216 + 30) (18 + 10) = finderPixel 30 10 :=
  (fixImage_finder sampleImage.toImage (by decide) sampleImage_contains_anchors
    { X := 216, Y := 18 } (by decide) 30 10 (by decide) (by decide)).1

/-- C7, as stated, fails: for the image `&image.Uniform{color.White}`
`FixImage` panics in `image.NewRGBA`, so there is no bitmap `FixImage img` to
compare. -/
theorem fixImage_uniform_white_no_bitmap :
    FixImage (Uniform white) =
        .error "image: NewRGBA Rectangle has huge or negative dimensions" ∧
      ∀ out, FixImage (Uniform white) ≠ .ok out := by
  have h := fixImage_error _ (uniform_not_allocable white)
  refine ⟨h, fun out e => ?_⟩
  rw [h] at e
  cases e

/-- C7, amended. For every input image whose bounds are bounds
`image.NewRGBA` accepts (width and height not negative, `4 * width * height`
within `int`), `FixImage img` returns a bitmap, and `FixImage` applied to that
bitmap returns the same bitmap: the same bounds and the same pixel at every
position. -/
theorem fixImage_idempotent (img : Image) (ha : Allocable img.Bounds) :
    ∃ out, FixImage img = .ok out ∧
      ∃ out2, FixImage out.toImage = .ok out2 ∧ out2.Rect = out.Rect ∧
        ∀ x y : Int, out2.At x y = out.At x y := by
  obtain ⟨out, ho⟩ : ∃ out, FixImage img = .ok out := ⟨_, fixImage_ok img ha⟩
  have hb : out.toImage.Bounds = out.Rect := rfl
  have ha2 : Allocable out.toImage.Bounds := by rw [hb]; exact out.alloc
  obtain ⟨out2, ho2⟩ : ∃ out2, FixImage out.toImage = .ok out2 :=
    ⟨_, fixImage_ok out.toImage ha2⟩
  refine ⟨out, ho, out2, ho2, ?_, fun x y => ?_⟩
  · rw [(fixImage_at out.toImage out2 ho2 0 0).1, hb]
  · have hat : out.toImage.At x y = (out.At x y).RGBA := rfl
    rw [(fixImage_at out.toImage out2 ho2 x y).2, hb, hat, toRGBA_RGBA,
      (fixImage_at img out ho x y).1, (fixImage_at img out ho x y).2]
    split_ifs <;> rfl

theorem fixImage_idempotent_witness :
    ∃ out, FixImage sampleImage.toImage = .ok out ∧
      ∃ out2, FixImage out.toImage = .ok out2 ∧ out2.Rect = out.Rect ∧
        ∀ x y : Int, out2.At x y = out.At x y :=
  fixImage_idempotent sampleImage.toImage (by decide)

/-- C8, as stated, fails: the light square drawn for the anchor at `(18,18)`
has side 45 px, which is 5 modules, not 6 modules (54 px). -/
theorem middleSquare_side_not_six_modules :
    (middleSquare { X := 18, Y := 18 }).Dx = 45 ∧
      (middleSquare { X := 18, Y := 18 }).Dx ≠ 6 * w := by
  decide

/-- C8, amended. For each anchor origin, the light (middle) square that
`FixImage` draws over the 7-module dark outer square has side 5 x module
(45 px) and is inset by 1 x module (9 px) on each side of the outer square;
the dark core has side 3 x module (27 px) and is inset by 2 x module (18 px)
on each side. -/
theorem anchor_square_geometry (o : Point) :
    ((outerSquare o).Dx = 7 * w ∧ (outerSquare o).Dy = 7 * w) ∧
      ((middleSquare o).Dx = 5 * w ∧ (middleSquare o).Dy = 5 * w ∧
        (middleSquare o).Dx = 45) ∧
      ((middleSquare o).Min.X - (outerSquare o).Min.X = w ∧
        (middleSquare o).Min.Y - (outerSquare o).Min.Y = w ∧
        (outerSquare o).Max.X - (middleSquare o).Max.X = w ∧
        (outerSquare o).Max.Y - (middleSquare o).Max.Y = w) ∧
      ((coreSquare o).Dx = 3 * w ∧ (coreSquare o).Dy = 3 * w ∧ (coreSquare o).Dx = 27) ∧
      ((coreSquare o).Min.X - (outerSquare o).Min.X = 2 * w ∧
        (coreSquare o).Min.Y - (outerSquare o).Min.Y = 2 * w ∧
        (outerSquare o).Max.X - (coreSquare o).Max.X = 2 * w ∧
        (outerSquare o).Max.Y - (coreSquare o).Max.Y = 2 * w) := by
  simp only [outerSquare, middleSquare, coreSquare, Rect, w, w2, w5, w6, w7,
    Rectangle.Dx, Rectangle.Dy, sub64, wrap64]
  have e1 : ¬ (o.X > o.X + 9 * 7) := by omega
  have e2 : ¬ (o.Y > o.Y + 9 * 7) := by omega
  have e3 : ¬ (o.X + 9 > o.X + 9 * 6) := by omega
  have e4 : ¬ (o.Y + 9 > o.Y + 9 * 6) := by omega
  have e5 : ¬ (o.X + 9 * 2 > o.X + 9 * 5) := by omega
  have e6 : ¬ (o.Y + 9 * 2 > o.Y + 9 * 5) := by omega
  simp only [e1, e2, e3, e4, e5, e6, if_false]
  omega

theorem regexpKey_no_slash (t : List Char) (h : '/' ∉ t) : regexpKeyFindString t = [] := by
  induction t with
  | nil => rfl
  | cons c rest ih =>
    have hc : c ≠ '/' := fun e => h (by simp [e])
    have hr : '/' ∉ rest := fun e => h (by simp [e])
    simp [regexpKeyFindString, regexpKeyMatch, hc, ih hr]

theorem regexpKey_first_slash (pre rest : List Char) (hpre : '/' ∉ pre)
    (hrest : Char.ofNat 10 ∉ rest) : regexpKeyFindString (pre ++ '/' :: rest) = '/' :: rest := by
  induction pre with
  | nil =>
    have : rest.all (fun d => decide (d ≠ Char.ofNat 10)) = true := by
      rw [List.all_eq_true]
      intro d hd
      simp only [decide_eq_true_eq]
      exact fun e => hrest (e ▸ hd)
    simp only [List.nil_append, regexpKeyFindString, regexpKeyMatch, this, decide_True, Bool.and_self,
      if_true]
  | cons c pre ih =>
    have hc : c ≠ '/' := fun e => hpre (by simp [e])
    have hr : '/' ∉ pre := fun e => hpre (by simp [e])
    simp [regexpKeyFindString, regexpKeyMatch, hc, ih hr]

/-- C4, as stated, fails: on `https://example.com/abcdef` the key is the
text from the first `/` on, `//example.com/abcdef`, not `abcdef`; on a text
without `/` the key is empty, not the text. -/
theorem key_not_after_last_slash :
    Key "https://example.com/abcdef" = "//example.com/abcdef" ∧
      Key "https://example.com/abcdef" ≠ "abcdef" ∧
      Key "abcdef" = "" ∧ Key "abcdef" ≠ "abcdef" := by
  decide

/-- C4, amended. For every decoded text whose first `/` is followed by no
line feed, the key is the part of the text from that first `/` on, the `/`
included; for every text without `/` the key is the empty text; e.g.
`https://example.com/abcdef` yields `//example.com/abcdef`. -/
theorem key_from_first_slash :
    (∀ pre rest : List Char, '/' ∉ pre → Char.ofNat 10 ∉ rest →
        Key (String.mk (pre ++ '/' :: rest)) = String.mk ('/' :: rest)) ∧
      (∀ t : String, '/' ∉ t.data → Key t = "") ∧
      Key "https://example.com/abcdef" = "//example.com/abcdef" := by
  refine ⟨fun pre rest hpre hrest => ?_, fun t ht => ?_, by decide⟩
  · simp only [Key, regexpKey_first_slash pre rest hpre hrest]
  · simp only [Key, regexpKey_no_slash t.data ht]

theorem key_from_first_slash_witness :
    Key (String.mk (['a', 'b'] ++ '/' :: ['c', '/', 'd'])) = String.mk ('/' :: ['c', '/', 'd']) ∧
      Key "abc" = "" :=
  ⟨key_from_first_slash.1 ['a', 'b'] ['c', '/', 'd'] (by decide) (by decide),
    key_from_first_slash.2.1 "abc" (by decide)⟩

end QuickResponseCode

/-! ## Theorems: rounding -/

theorem roundHalfEven_cases (x : ℚ) :
    (roundHalfEven x = ⌊x⌋ ∧ x - ⌊x⌋ ≤ 1 / 2) ∨
      (roundHalfEven x = ⌊x⌋ + 1 ∧ 1 / 2 ≤ x - ⌊x⌋) := by
  unfold roundHalfEven
  split_ifs with h1 h2 h3
  · exact Or.inl ⟨rfl, le_of_lt h1⟩
  · exact Or.inr ⟨rfl, le_of_lt h2⟩
  · exact Or.inl ⟨rfl, not_lt.mp h2⟩
  · exact Or.inr ⟨rfl, not_lt.mp h1⟩

theorem roundHalfEven_intCast (n : Int) : roundHalfEven (n : ℚ) = n := by
  unfold roundHalfEven
  simp

theorem abs_sub_roundHalfEven_le (x : ℚ) : |x - roundHalfEven x| ≤ 1 / 2 := by
  have h0 := Int.floor_le x
  have h1 := Int.lt_floor_add_one x
  rcases roundHalfEven_cases x with ⟨e, h⟩ | ⟨e, h⟩
  · rw [e, abs_le]; constructor <;> linarith
  · rw [e, abs_le]; push_cast; constructor <;> linarith

theorem roundHalfEven_mono {x y : ℚ} (h : x ≤ y) : roundHalfEven x ≤ roundHalfEven y := by
  have hf : ⌊x⌋ ≤ ⌊y⌋ := Int.floor_mono h
  rcases lt_or_eq_of_le hf with hlt | heq
  · have hx : roundHalfEven x ≤ ⌊x⌋ + 1 := by
      rcases roundHalfEven_cases x with ⟨e, _⟩ | ⟨e, _⟩ <;> omega
    have hy : ⌊y⌋ ≤ roundHalfEven y := by
      rcases roundHalfEven_cases y with ⟨e, _⟩ | ⟨e, _⟩ <;> omega
    omega
  · unfold roundHalfEven
    rw [← heq]
    split_ifs <;> first | omega | (exfalso; linarith)

theorem roundHalfEven_le_of_le {x : ℚ} {n : Int} (h : x ≤ n) : roundHalfEven x ≤ n := by
  have := roundHalfEven_mono h
  rwa [roundHalfEven_intCast] at this

theorem le_roundHalfEven_of_le {x : ℚ} {n : Int} (h : (n : ℚ) ≤ x) : n ≤ roundHalfEven x := by
  have := roundHalfEven_mono h
  rwa [roundHalfEven_intCast] at this

theorem roundHalfEven_nonneg {x : ℚ} (h : 0 ≤ x) : 0 ≤ roundHalfEven x :=
  le_roundHalfEven_of_le (by exact_mod_cast h)

/-- A rational strictly nearer than one half to the integer `n` rounds to `n`. -/
theorem roundHalfEven_eq_of_abs_lt {x : ℚ} {n : Int} (h : |x - n| < 1 / 2) :
    roundHalfEven x = n := by
  rw [abs_lt] at h
  obtain ⟨h1, h2⟩ := h
  have e := abs_sub_roundHalfEven_le x
  rw [abs_le] at e
  obtain ⟨e1, e2⟩ := e
  have a : ((roundHalfEven x : Int) : ℚ) < (n : ℚ) + 1 := by linarith
  have b : (n : ℚ) - 1 < ((roundHalfEven x : Int) : ℚ) := by linarith
  have a' : roundHalfEven x < n + 1 := by exact_mod_cast a
  have b' : n - 1 < roundHalfEven x := by exact_mod_cast b
  omega

/-- On a tie the even neighbour is chosen. -/
theorem roundHalfEven_tie {x : ℚ} {n : Int} (h : |x - n| = 1 / 2) :
    roundHalfEven x = n ↔ n % 2 = 0 := by
  rcases abs_eq (by norm_num : (0 : ℚ) ≤ 1 / 2) |>.mp h with h1 | h1
  · -- x = n + 1/2
    have hx : x = (n : ℚ) + 1 / 2 := by linarith
    have hfl : ⌊x⌋ = n := by
      rw [Int.floor_eq_iff]; constructor <;> linarith
    unfold roundHalfEven
    rw [hfl]
    have e : x - (n : ℚ) = 1 / 2 := by linarith
    rw [e]
    simp only [lt_self_iff_false, if_false]
    split_ifs with h3
    · simp [h3]
    · constructor
      · intro h4; omega
      · intro h4; exact absurd h4 h3
  · -- x = n - 1/2
    have hx : x = (n : ℚ) - 1 / 2 := by linarith
    have hfl : ⌊x⌋ = n - 1 := by
      rw [Int.floor_eq_iff]; push_cast; constructor <;> linarith
    unfold roundHalfEven
    rw [hfl]
    have e : x - ((n - 1 : Int) : ℚ) = 1 / 2 := by push_cast; linarith
    rw [e]
    simp only [lt_self_iff_false, if_false]
    split_ifs with h3
    · constructor
      · intro h4; omega
      · intro h4; omega
    · constructor
      · intro _; omega
      · intro _; omega

theorem abs_sub_roundHalfEven_le_int (x : ℚ) (n : Int) :
    |x - roundHalfEven x| ≤ |x - n| := by
  by_cases h : n = roundHalfEven x
  · rw [h]
  · have h1 : (1 : ℚ) ≤ |((n - roundHalfEven x : Int) : ℚ)| := by
      have : (1 : Int) ≤ |n - roundHalfEven x| := Int.one_le_abs (by omega)
      exact_mod_cast this
    have h2 := abs_sub_roundHalfEven_le x
    have h3 : |((n - roundHalfEven x : Int) : ℚ)| ≤ |x - n| + |x - roundHalfEven x| := by
      have e : ((n - roundHalfEven x : Int) : ℚ) = (x - roundHalfEven x) - (x - n) := by
        push_cast; ring
      rw [e]
      calc |x - ↑(roundHalfEven x) - (x - ↑n)| ≤ |x - ↑(roundHalfEven x)| + |x - ↑n| :=
            abs_sub _ _
        _ = |x - n| + |x - roundHalfEven x| := add_comm _ _
    linarith

namespace FloatFormat

theorem ulp_pos (F : FloatFormat) (x : ℚ) : 0 < F.ulp x :=
  zpow_pos (by norm_num) _

theorem roundMag_zero (F : FloatFormat) : F.roundMag 0 = 0 := by
  unfold roundMag
  rw [zero_div, ← Int.cast_zero, roundHalfEven_intCast, Int.cast_zero, zero_mul]

theorem roundMag_nonneg (F : FloatFormat) {x : ℚ} (h : 0 ≤ x) : 0 ≤ F.roundMag x := by
  unfold roundMag
  have h1 : 0 ≤ x / F.ulp x := div_nonneg h (le_of_lt (F.ulp_pos x))
  have h2 : (0 : ℚ) ≤ (roundHalfEven (x / F.ulp x) : ℚ) := by
    exact_mod_cast roundHalfEven_nonneg h1
  exact mul_nonneg h2 (le_of_lt (F.ulp_pos x))

/-- A point of the grid of `x` that is above `x` is above the rounding of `x`. -/
theorem roundMag_le_grid (F : FloatFormat) (x : ℚ) (n : Int) (h : x ≤ n * F.ulp x) :
    F.roundMag x ≤ n * F.ulp x := by
  unfold roundMag
  have hu := F.ulp_pos x
  have h1 : x / F.ulp x ≤ n := by rwa [div_le_iff₀ hu]
  have h2 : (roundHalfEven (x / F.ulp x) : ℚ) ≤ (n : ℚ) := by
    exact_mod_cast roundHalfEven_le_of_le h1
  exact mul_le_mul_of_nonneg_right h2 (le_of_lt hu)

/-- A point of the grid of `x` that is below `x` is below the rounding of `x`. -/
theorem grid_le_roundMag (F : FloatFormat) (x : ℚ) (n : Int) (h : n * F.ulp x ≤ x) :
    n * F.ulp x ≤ F.roundMag x := by
  unfold roundMag
  have hu := F.ulp_pos x
  have h1 : (n : ℚ) ≤ x / F.ulp x := by rwa [le_div_iff₀ hu]
  have h2 : (n : ℚ) ≤ (roundHalfEven (x / F.ulp x) : ℚ) := by
    exact_mod_cast le_roundHalfEven_of_le h1
  exact mul_le_mul_of_nonneg_right h2 (le_of_lt hu)

/-- No point of the grid of `x` is nearer to `x` than its rounding. -/
theorem roundMag_nearest_grid (F : FloatFormat) (x : ℚ) (n : Int) :
    |x - F.roundMag x| ≤ |x - n * F.ulp x| := by
  unfold roundMag
  have hu := F.ulp_pos x
  have h := abs_sub_roundHalfEven_le_int (x / F.ulp x) n
  have e1 : x - (roundHalfEven (x / F.ulp x) : ℚ) * F.ulp x =
      (x / F.ulp x - roundHalfEven (x / F.ulp x)) * F.ulp x := by
    rw [sub_mul, div_mul_cancel₀ _ (ne_of_gt hu)]
  have e2 : x - (n : ℚ) * F.ulp x = (x / F.ulp x - n) * F.ulp x := by
    rw [sub_mul, div_mul_cancel₀ _ (ne_of_gt hu)]
  rw [e1, e2, abs_mul, abs_mul]
  exact mul_le_mul_of_nonneg_right h (abs_nonneg _)

/-- A power of two whose exponent is not below that of the unit in the last
place of `x` is a point of the grid of `x`. -/
theorem pow_eq_grid (F : FloatFormat) (x : ℚ) (k : Int)
    (hk : max (Int.log 2 x) F.emin - (F.prec : Int) + 1 ≤ k) :
    ∃ n : Int, (2 : ℚ) ^ k = n * F.ulp x := by
  refine ⟨2 ^ (k - (max (Int.log 2 x) F.emin - (F.prec : Int) + 1)).toNat, ?_⟩
  unfold ulp
  push_cast
  rw [← zpow_natCast, ← zpow_add₀ (by norm_num : (2 : ℚ) ≠ 0)]
  congr 1
  omega

/-- A dyadic multiple of a grid power is a point of the grid of `x`. -/
theorem dyadic_eq_grid (F : FloatFormat) (x : ℚ) (m : Int) (k : Int)
    (hk : max (Int.log 2 x) F.emin - (F.prec : Int) + 1 ≤ k) :
    ∃ n : Int, (m : ℚ) * (2 : ℚ) ^ k = n * F.ulp x := by
  obtain ⟨n, hn⟩ := F.pow_eq_grid x k hk
  exact ⟨m * n, by rw [hn]; push_cast; ring⟩

theorem roundMag_grid (F : FloatFormat) (x : ℚ) (n : Int) (h : x = n * F.ulp x) :
    F.roundMag x = x := by
  apply le_antisymm
  · have := F.roundMag_le_grid x n (le_of_eq h)
    rwa [← h] at this
  · have := F.grid_le_roundMag x n (le_of_eq h.symm)
    rwa [← h] at this

theorem roundMag_mono (F : FloatFormat) (hp : 1 ≤ F.prec) {x y : ℚ} (hx : 0 ≤ x)
    (hxy : x ≤ y) : F.roundMag x ≤ F.roundMag y := by
  rcases eq_or_lt_of_le hx with h0 | hpos
  · rw [← h0, roundMag_zero]
    exact F.roundMag_nonneg (le_trans hx hxy)
  have hypos : 0 < y := lt_of_lt_of_le hpos hxy
  have hlog : Int.log 2 x ≤ Int.log 2 y := Int.log_mono_right hpos hxy
  have hE : max (Int.log 2 x) F.emin ≤ max (Int.log 2 y) F.emin :=
    max_le_max hlog (le_refl _)
  rcases eq_or_lt_of_le hE with he | hlt
  · have hu : F.ulp x = F.ulp y := by unfold ulp; rw [he]
    unfold roundMag
    rw [hu]
    have h1 : x / F.ulp y ≤ y / F.ulp y :=
      div_le_div_of_nonneg_right hxy (le_of_lt (F.ulp_pos y))
    have h2 : (roundHalfEven (x / F.ulp y) : ℚ) ≤ (roundHalfEven (y / F.ulp y) : ℚ) := by
      exact_mod_cast roundHalfEven_mono h1
    exact mul_le_mul_of_nonneg_right h2 (le_of_lt (F.ulp_pos y))
  · -- different binades: a power of two separates the two roundings
    have hEy : max (Int.log 2 y) F.emin = Int.log 2 y := by
      rcases le_total (Int.log 2 y) F.emin with h | h
      · exfalso
        rw [max_eq_right h] at hlt
        exact absurd (le_max_right (Int.log 2 x) F.emin) (not_le.mpr hlt)
      · exact max_eq_left h
    have hp' : (1 : Int) ≤ (F.prec : Int) := by exact_mod_cast hp
    -- the separating power
    have hx2 : x ≤ (2 : ℚ) ^ (max (Int.log 2 x) F.emin + 1) := by
      have h1 : x < ((2 : ℕ) : ℚ) ^ (Int.log 2 x + 1) :=
        Int.lt_zpow_succ_log_self (by norm_num) x
      have h2 : (2 : ℚ) ^ (Int.log 2 x + 1) ≤ (2 : ℚ) ^ (max (Int.log 2 x) F.emin + 1) :=
        zpow_le_zpow_right₀ (by norm_num) (by have := le_max_left (Int.log 2 x) F.emin; omega)
      have h3 : ((2 : ℕ) : ℚ) = 2 := by norm_num
      rw [h3] at h1
      linarith
    have hy2 : (2 : ℚ) ^ (max (Int.log 2 y) F.emin) ≤ y := by
      rw [hEy]
      have h1 : ((2 : ℕ) : ℚ) ^ (Int.log 2 y) ≤ y := Int.zpow_log_le_self (by norm_num) hypos
      have h3 : ((2 : ℕ) : ℚ) = 2 := by norm_num
      rwa [h3] at h1
    obtain ⟨n1, hn1⟩ := F.pow_eq_grid x (max (Int.log 2 x) F.emin + 1) (by omega)
    obtain ⟨n2, hn2⟩ := F.pow_eq_grid y (max (Int.log 2 y) F.emin) (by omega)
    have a1 : F.roundMag x ≤ (2 : ℚ) ^ (max (Int.log 2 x) F.emin + 1) := by
      rw [hn1]; exact F.roundMag_le_grid x n1 (by rw [← hn1]; exact hx2)
    have a2 : (2 : ℚ) ^ (max (Int.log 2 y) F.emin) ≤ F.roundMag y := by
      rw [hn2]; exact F.grid_le_roundMag y n2 (by rw [← hn2]; exact hy2)
    have a3 : (2 : ℚ) ^ (max (Int.log 2 x) F.emin + 1) ≤ (2 : ℚ) ^ (max (Int.log 2 y) F.emin) :=
      zpow_le_zpow_right₀ (by norm_num) (by omega)
    linarith

/-- A dyadic number with a significand of at most `prec` bits and an exponent
in range is a value of the format: rounding leaves it unchanged. -/
theorem roundMag_dyadic (F : FloatFormat) (n : Nat) (k : Int) (hn : n < 2 ^ F.prec)
    (hk : F.emin - (F.prec : Int) + 1 ≤ k) :
    F.roundMag ((n : ℚ) * (2 : ℚ) ^ k) = (n : ℚ) * (2 : ℚ) ^ k := by
  rcases Nat.eq_zero_or_pos n with h0 | hpos
  · rw [h0]; simp [roundMag_zero]
  have h2k : (0 : ℚ) < (2 : ℚ) ^ k := zpow_pos (by norm_num) _
  have hx : (0 : ℚ) < (n : ℚ) * (2 : ℚ) ^ k :=
    mul_pos (by exact_mod_cast hpos) h2k
  have hlt : (n : ℚ) * (2 : ℚ) ^ k < ((2 : ℕ) : ℚ) ^ ((F.prec : Int) + k) := by
    have h3 : ((2 : ℕ) : ℚ) = 2 := by norm_num
    rw [h3, zpow_add₀ (by norm_num : (2 : ℚ) ≠ 0), zpow_natCast]
    have : (n : ℚ) < (2 : ℚ) ^ F.prec := by exact_mod_cast hn
    exact mul_lt_mul_of_pos_right this h2k
  have hlog : Int.log 2 ((n : ℚ) * (2 : ℚ) ^ k) < (F.prec : Int) + k :=
    (Int.lt_zpow_iff_log_lt (by norm_num) hx).mp hlt
  have hE : max (Int.log 2 ((n : ℚ) * (2 : ℚ) ^ k)) F.emin - (F.prec : Int) + 1 ≤ k := by
    rcases max_cases (Int.log 2 ((n : ℚ) * (2 : ℚ) ^ k)) F.emin with ⟨e, _⟩ | ⟨e, _⟩ <;>
      rw [e] <;> omega
  obtain ⟨m, hm⟩ := F.dyadic_eq_grid ((n : ℚ) * (2 : ℚ) ^ k) (n : Int) k hE
  exact F.roundMag_grid _ m (by rw [← hm]; push_cast; rfl)

theorem roundMag_natCast (F : FloatFormat) (n : Nat) (hn : n < 2 ^ F.prec)
    (hk : F.emin - (F.prec : Int) + 1 ≤ 0) : F.roundMag (n : ℚ) = n := by
  have := F.roundMag_dyadic n 0 hn hk
  simpa using this

theorem roundMag_pow (F : FloatFormat) (hp : 1 ≤ F.prec) (k : Int)
    (hk : F.emin - (F.prec : Int) + 1 ≤ k) : F.roundMag ((2 : ℚ) ^ k) = (2 : ℚ) ^ k := by
  have h1 : 1 < 2 ^ F.prec := Nat.one_lt_two_pow (by omega)
  have := F.roundMag_dyadic 1 k h1 hk
  simpa using this

/-- Below a power of two of the format nothing overflows: the rounding is
finite and stays below that power. -/
theorem round_of_le (F : FloatFormat) (hp : 1 ≤ F.prec) (neg : Bool) {x : ℚ} (k : Int)
    (hx : 0 ≤ x) (hxk : x ≤ (2 : ℚ) ^ k) (hk : F.emin - (F.prec : Int) + 1 ≤ k)
    (hk' : k ≤ F.emax) :
    F.round neg x = .fin neg (F.roundMag x) ∧ F.roundMag x ≤ (2 : ℚ) ^ k := by
  have h1 : F.roundMag x ≤ (2 : ℚ) ^ k := by
    have := F.roundMag_mono hp hx hxk
    rwa [F.roundMag_pow hp k hk] at this
  have h2 : (2 : ℚ) ^ k < (2 : ℚ) ^ (F.emax + 1) :=
    zpow_lt_zpow_right₀ (by norm_num) (by omega)
  refine ⟨?_, h1⟩
  unfold round
  rw [if_neg (by linarith)]

end FloatFormat

theorem wrap64_of_range {x : Int} (h1 : -9223372036854775808 ≤ x)
    (h2 : x < 9223372036854775808) : wrap64 x = x := by
  unfold wrap64; omega

theorem wrap64_range (x : Int) :
    -9223372036854775808 ≤ wrap64 x ∧ wrap64 x < 9223372036854775808 := by
  unfold wrap64; omega

theorem wrap64_modEq (x : Int) : wrap64 x ≡ x [ZMOD 18446744073709551616] := by
  unfold wrap64 Int.ModEq; omega

theorem wrap64_congr {x y : Int} (h : x ≡ y [ZMOD 18446744073709551616]) :
    wrap64 x = wrap64 y := by
  unfold wrap64
  unfold Int.ModEq at h
  omega

namespace FloatVal

theorem ofInt_cases (F : FloatFormat) (i : Int) :
    ofInt F i = .inf (decide (i < 0)) ∨
      ofInt F i = .fin (decide (i < 0)) (F.roundMag |(i : ℚ)|) := by
  unfold ofInt FloatFormat.round
  split_ifs
  · exact Or.inl rfl
  · exact Or.inr rfl

/-- The conversion of an integer keeps its sign: the result is positive
exactly when the integer is. -/
theorem ofInt_gt_zero (F : FloatFormat) (hp : 1 ≤ F.prec)
    (he : F.emin - (F.prec : Int) + 1 ≤ 0) (i : Int) :
    (ofInt F i).gt zero = decide (0 < i) ∧ (ofInt F i).eq zero = decide (i = 0) := by
  have hone : F.roundMag 1 = 1 := by
    have := F.roundMag_pow hp 0 he
    simpa using this
  rcases lt_trichotomy i 0 with hneg | h0 | hpos
  · have hm : 1 ≤ F.roundMag |(i : ℚ)| := by
      have h1 : (1 : ℚ) ≤ |(i : ℚ)| := by
        have : (1 : Int) ≤ |i| := Int.one_le_abs (by omega)
        exact_mod_cast this
      have := F.roundMag_mono hp (by norm_num) h1
      rwa [hone] at this
    have hd : decide (i < 0) = true := by simpa using hneg
    have g1 : decide (0 < i) = false := by simp; omega
    have g2 : decide (i = 0) = false := by simp; omega
    rcases ofInt_cases F i with e | e <;> rw [e, hd, g1, g2]
    · simp [gt, lt, eq, zero]
    · simp only [gt, lt, eq, zero, signed, if_true, if_false, Bool.false_eq_true]
      constructor
      · simp; linarith
      · simp; linarith
  · subst h0
    have e : ofInt F 0 = .fin false 0 := by
      unfold ofInt FloatFormat.round
      simp only [Int.cast_zero, abs_zero, FloatFormat.roundMag_zero]
      have : ¬ ((2 : ℚ) ^ (F.emax + 1) ≤ 0) := not_le.mpr (zpow_pos (by norm_num) _)
      simp [this]
    rw [e]
    simp [gt, lt, eq, zero, signed]
  · have hm : 1 ≤ F.roundMag |(i : ℚ)| := by
      have h1 : (1 : ℚ) ≤ |(i : ℚ)| := by
        have : (1 : Int) ≤ |i| := Int.one_le_abs (by omega)
        exact_mod_cast this
      have := F.roundMag_mono hp (by norm_num) h1
      rwa [hone] at this
    have hd : decide (i < 0) = false := by simp; omega
    have g1 : decide (0 < i) = true := by simpa using hpos
    have g2 : decide (i = 0) = false := by simp; omega
    rcases ofInt_cases F i with e | e <;> rw [e, hd, g1, g2]
    · simp [gt, lt, eq, zero]
    · simp only [gt, lt, eq, zero, signed, if_true, if_false, Bool.false_eq_true]
      constructor
      · simp; linarith
      · simp; linarith

end FloatVal

namespace SecondDegree

/-- The machine discriminant of `Solve`: `B*B - 4*A*C` in `int`. -/
theorem discriminant_eq_wrap (ch : Challenge) :
    sub64 (mul64 ch.B ch.B) (mul64 (mul64 4 ch.A) ch.C) =
      wrap64 (ch.B * ch.B - 4 * ch.A * ch.C) := by
  unfold sub64 mul64
  apply wrap64_congr
  exact Int.ModEq.sub (wrap64_modEq _)
    ((wrap64_modEq _).trans (Int.ModEq.mul_right _ (wrap64_modEq _)))

/-- The number of roots `Solve` returns is decided by the sign of the machine
discriminant. -/
theorem solve_length (ch : Challenge) :
    (0 < wrap64 (ch.B * ch.B - 4 * ch.A * ch.C) → (Solve ch).Roots.length = 2) ∧
      (wrap64 (ch.B * ch.B - 4 * ch.A * ch.C) = 0 → (Solve ch).Roots.length = 1) ∧
      (wrap64 (ch.B * ch.B - 4 * ch.A * ch.C) < 0 → (Solve ch).Roots.length = 0) := by
  have h := FloatVal.ofInt_gt_zero binary32 (by decide) (by decide)
    (wrap64 (ch.B * ch.B - 4 * ch.A * ch.C))
  obtain ⟨h1, h2⟩ := h
  unfold Solve
  simp only [discriminant_eq_wrap, h1, h2]
  refine ⟨fun hd => ?_, fun hd => ?_, fun hd => ?_⟩
  · simp [hd]
  · simp [hd]
  · have a : ¬ (0 < wrap64 (ch.B * ch.B - 4 * ch.A * ch.C)) := by omega
    have b : ¬ (wrap64 (ch.B * ch.B - 4 * ch.A * ch.C) = 0) := by omega
    simp [a, b]

end SecondDegree

namespace FloatFormat

theorem roundSigned_mono (F : FloatFormat) (hp : 1 ≤ F.prec) {v w : ℚ} (h : v ≤ w) :
    F.roundSigned v ≤ F.roundSigned w := by
  unfold roundSigned
  split_ifs with hv hw hw
  · have : |w| ≤ |v| := by rw [abs_of_neg hv, abs_of_neg hw]; linarith
    have := F.roundMag_mono hp (abs_nonneg w) this
    linarith
  · have a := F.roundMag_nonneg (abs_nonneg v)
    have b := F.roundMag_nonneg (abs_nonneg w)
    linarith
  · exfalso; linarith
  · have : |v| ≤ |w| := by
      rw [abs_of_nonneg (not_lt.mp hv), abs_of_nonneg (not_lt.mp hw)]; exact h
    exact F.roundMag_mono hp (abs_nonneg v) this

end FloatFormat

theorem signed_abs (v : ℚ) : signed (decide (v < 0)) |v| = v := by
  unfold signed
  by_cases h : v < 0
  · simp [h, abs_of_neg h]
  · simp [h, abs_of_nonneg (not_lt.mp h)]

theorem abs_signed (s : Bool) {m : ℚ} (h : 0 ≤ m) : |signed s m| = m := by
  unfold signed
  cases s <;> simp [abs_of_nonneg h]

theorem two_pow_63 : (2 : ℚ) ^ (63 : Int) = 9223372036854775808 := by norm_num

namespace FloatVal

/-- The conversion of a Go `int` to `float32` or `float64` is finite. -/
theorem ofInt_fin (F : FloatFormat) (hp : 1 ≤ F.prec)
    (he : F.emin - (F.prec : Int) + 1 ≤ 63) (hm : 63 ≤ F.emax) (i : Int) (hi : isInt64 i) :
    ofInt F i = .fin (decide (i < 0)) (F.roundMag |(i : ℚ)|) ∧
      0 ≤ F.roundMag |(i : ℚ)| ∧ F.roundMag |(i : ℚ)| ≤ (2 : ℚ) ^ (63 : Int) := by
  have habs : |(i : ℚ)| ≤ (2 : ℚ) ^ (63 : Int) := by
    rw [two_pow_63, abs_le]
    obtain ⟨h1, h2⟩ := hi
    constructor
    · exact_mod_cast h1
    · exact_mod_cast le_of_lt h2
  have := F.round_of_le hp (decide (i < 0)) 63 (abs_nonneg _) habs he hm
  exact ⟨this.1, F.roundMag_nonneg (abs_nonneg _), this.2⟩

/-- Addition of finite data below `2^k`: the sum is finite and denotes the
rounding of the exact sum. -/
theorem add_fin (s t : Bool) {a b : ℚ} (k : Int) (ha : 0 ≤ a) (hb : 0 ≤ b)
    (hak : a ≤ (2 : ℚ) ^ k) (hbk : b ≤ (2 : ℚ) ^ k) (hk0 : 0 ≤ k) (hk : k + 1 ≤ 1023) :
    ∃ s' m', add binary64 (fin s a) (fin t b) = fin s' m' ∧ 0 ≤ m' ∧
      m' ≤ (2 : ℚ) ^ (k + 1) ∧
      signed s' m' = binary64.roundSigned (signed s a + signed t b) := by
  simp only [add]
  by_cases h0 : signed s a + signed t b = 0
  · rw [if_pos h0]
    refine ⟨s && t, 0, rfl, le_refl _, le_of_lt (zpow_pos (by norm_num) _), ?_⟩
    rw [h0]
    simp [signed, FloatFormat.roundSigned, FloatFormat.roundMag_zero]
  · rw [if_neg h0]
    have hbound : |signed s a + signed t b| ≤ (2 : ℚ) ^ (k + 1) := by
      have h1 : |signed s a + signed t b| ≤ |signed s a| + |signed t b| := abs_add _ _
      rw [abs_signed s ha, abs_signed t hb] at h1
      rw [zpow_add₀ (by norm_num : (2 : ℚ) ≠ 0), zpow_one]
      linarith
    have hr := binary64.round_of_le (by decide) (decide (signed s a + signed t b < 0))
      (k + 1) (abs_nonneg _) hbound (by simp only [binary64]; omega)
      (by simp only [binary64]; omega)
    refine ⟨_, _, hr.1, binary64.roundMag_nonneg (abs_nonneg _), hr.2, ?_⟩
    unfold FloatFormat.roundSigned signed
    by_cases hv : signed s a + signed t b < 0
    · simp [hv]
    · simp [hv]

theorem neg_fin (s : Bool) (m : ℚ) : neg (fin s m) = fin (!s) m := rfl

theorem signed_not (s : Bool) (m : ℚ) : signed (!s) m = -signed s m := by
  cases s <;> simp [signed]

/-- Division of finite data by a divisor of magnitude at least one: the
quotient is finite. -/
theorem div_fin (s t : Bool) {a b : ℚ} (k : Int) (ha : 0 ≤ a) (hak : a ≤ (2 : ℚ) ^ k)
    (hb : 1 ≤ b) (hk0 : 0 ≤ k) (hk : k ≤ 1023) :
    div binary64 (fin s a) (fin t b) = fin (xor s t) (binary64.roundMag (a / b)) := by
  simp only [div]
  have hb0 : b ≠ 0 := by linarith
  rw [if_neg hb0]
  have h1 : a / b ≤ (2 : ℚ) ^ k := by
    have : a / b ≤ a := div_le_self ha hb
    linarith
  exact (binary64.round_of_le (by decide) (xor s t) k
    (div_nonneg ha (by linarith)) h1 (by simp only [binary64]; omega)
    (by simp only [binary64]; omega)).1

/-- Rounded division by a positive magnitude is monotone in the dividend. -/
theorem signed_div_mono {s0 s1 : Bool} {m0 m1 d : ℚ} (h0 : 0 ≤ m0) (h1 : 0 ≤ m1)
    (hd : 0 < d) (h : signed s1 m1 ≤ signed s0 m0) :
    signed s1 (binary64.roundMag (m1 / d)) ≤ signed s0 (binary64.roundMag (m0 / d)) := by
  have n0 := binary64.roundMag_nonneg (div_nonneg h0 (le_of_lt hd))
  have n1 := binary64.roundMag_nonneg (div_nonneg h1 (le_of_lt hd))
  cases s0 <;> cases s1 <;> simp only [signed, if_true, if_false, Bool.false_eq_true] at h ⊢
  · exact binary64.roundMag_mono (by decide) (div_nonneg h1 (le_of_lt hd))
      (div_le_div_of_nonneg_right h (le_of_lt hd))
  · linarith
  · have e0 : m0 = 0 := by linarith
    have e1 : m1 = 0 := by linarith
    rw [e0, e1, zero_div, FloatFormat.roundMag_zero, neg_zero]
  · have : m0 ≤ m1 := by linarith
    have := binary64.roundMag_mono (by decide) (div_nonneg h0 (le_of_lt hd))
      (div_le_div_of_nonneg_right this (le_of_lt hd))
    linarith

theorem ge_fin (s0 s1 : Bool) (m0 m1 : ℚ) :
    ge (fin s0 m0) (fin s1 m1) = true ↔ signed s1 m1 ≤ signed s0 m0 := by
  simp only [ge, lt, eq, Bool.or_eq_true, decide_eq_true_eq]
  constructor
  · rintro (h | h)
    · exact le_of_lt h
    · exact le_of_eq h.symm
  · intro h
    rcases lt_or_eq_of_le h with h | h
    · exact Or.inl h
    · exact Or.inr h.symm

theorem log_bounds {m : ℚ} (h1 : 1 ≤ m) (h2 : m ≤ (2 : ℚ) ^ (63 : Int)) :
    0 ≤ Int.log 2 m ∧ Int.log 2 m ≤ 63 := by
  have hpos : 0 < m := by linarith
  have h3 : ((2 : ℕ) : ℚ) = 2 := by norm_num
  constructor
  · apply (Int.zpow_le_iff_le_log (by norm_num : 1 < 2) hpos).mp
    rw [h3]; simpa using h1
  · have : m < ((2 : ℕ) : ℚ) ^ (64 : Int) := by
      rw [h3]
      have : (2 : ℚ) ^ (63 : Int) < (2 : ℚ) ^ (64 : Int) :=
        zpow_lt_zpow_right₀ (by norm_num) (by norm_num)
      linarith
    have := (Int.lt_zpow_iff_log_lt (by norm_num : 1 < 2) hpos).mp this
    omega

/-- The square root of a finite datum in `[1, 2^63]` is finite and
non-negative. -/
theorem sqrt_fin {m : ℚ} (h1 : 1 ≤ m) (h2 : m ≤ (2 : ℚ) ^ (63 : Int)) :
    ∃ ms, sqrt (fin false m) = fin false ms ∧ 0 ≤ ms ∧ ms ≤ (2 : ℚ) ^ (116 : Int) := by
  have hm0 : m ≠ 0 := by linarith
  obtain ⟨hl0, hl1⟩ := log_bounds h1 h2
  simp only [sqrt, if_neg hm0, Bool.false_eq_true, if_false]
  refine ⟨_, rfl, ?_, ?_⟩
  · exact mul_nonneg (Nat.cast_nonneg _) (le_of_lt (zpow_pos (by norm_num) _))
  · set u : ℚ := (2 : ℚ) ^ (Int.log 2 m / 2 - 52) with hu
    set t : ℚ := m / (u * u) with ht
    set k : Nat := Nat.sqrt ⌊t⌋₊ with hk
    have hu0 : 0 < u := zpow_pos (by norm_num) _
    have hulo : (2 : ℚ) ^ (-52 : Int) ≤ u :=
      zpow_le_zpow_right₀ (by norm_num) (by omega)
    have huhi : u ≤ 1 := by
      have : u ≤ (2 : ℚ) ^ (0 : Int) := zpow_le_zpow_right₀ (by norm_num) (by omega)
      simpa using this
    have ht0 : 0 ≤ t := div_nonneg (by linarith) (le_of_lt (mul_pos hu0 hu0))
    have hkt : (k : ℚ) ≤ t := by
      have a : k ≤ ⌊t⌋₊ := Nat.sqrt_le_self _
      have b : ((⌊t⌋₊ : Nat) : ℚ) ≤ t := Nat.floor_le ht0
      have a' : (k : ℚ) ≤ ((⌊t⌋₊ : Nat) : ℚ) := by exact_mod_cast a
      linarith
    have hn : ∀ n : Nat, n ≤ k + 1 → (n : ℚ) * u ≤ (2 : ℚ) ^ (116 : Int) := by
      intro n hn
      have hn' : (n : ℚ) ≤ (k : ℚ) + 1 := by exact_mod_cast hn
      have e1 : (n : ℚ) * u ≤ (t + 1) * u :=
        mul_le_mul_of_nonneg_right (by linarith) (le_of_lt hu0)
      have e2 : t * u = m / u := by
        rw [ht]; field_simp; ring
      have e3 : m / u ≤ m / (2 : ℚ) ^ (-52 : Int) :=
        div_le_div_of_nonneg_left (by linarith) (zpow_pos (by norm_num) _) hulo
      have e4 : m / (2 : ℚ) ^ (-52 : Int) ≤ (2 : ℚ) ^ (63 : Int) / (2 : ℚ) ^ (-52 : Int) :=
        div_le_div_of_nonneg_right h2 (le_of_lt (zpow_pos (by norm_num) _))
      have e5 : (2 : ℚ) ^ (63 : Int) / (2 : ℚ) ^ (-52 : Int) + 1 ≤ (2 : ℚ) ^ (116 : Int) := by
        norm_num
      have e6 : (t + 1) * u = t * u + u := by ring
      linarith
    apply hn
    split_ifs <;> omega

/-- Doubling a finite datum of magnitude in `[1, 2^63]`. -/
theorem mul_two_fin (s : Bool) {a : ℚ} (h1 : 1 ≤ a) (h2 : a ≤ (2 : ℚ) ^ (63 : Int)) :
    mul binary64 two (fin s a) = fin s (binary64.roundMag (2 * a)) ∧
      1 ≤ binary64.roundMag (2 * a) := by
  have hb : (2 : ℚ) * a ≤ (2 : ℚ) ^ (64 : Int) := by
    have : (2 : ℚ) ^ (64 : Int) = 2 * (2 : ℚ) ^ (63 : Int) := by norm_num
    rw [this]; linarith
  have hr := binary64.round_of_le (by decide) s 64 (by linarith) hb (by decide) (by decide)
  constructor
  · simp only [mul, two, Bool.false_bne]
    exact hr.1
  · have hone : binary64.roundMag 1 = 1 := by
      have := binary64.roundMag_pow (by decide) 0 (by decide)
      simpa using this
    have := binary64.roundMag_mono (by decide) (by norm_num : (0 : ℚ) ≤ 1)
      (by linarith : (1 : ℚ) ≤ 2 * a)
    rwa [hone] at this

end FloatVal

namespace FloatFormat

theorem round_natCast (F : FloatFormat) (s : Bool) (n : Nat) (hn : n < 2 ^ F.prec)
    (hk : F.emin - (F.prec : Int) + 1 ≤ 0) (he : (F.prec : Int) ≤ F.emax + 1) :
    F.round s (n : ℚ) = .fin s n := by
  unfold round
  rw [F.roundMag_natCast n hn hk]
  have h1 : (n : ℚ) < (2 : ℚ) ^ (F.prec : Int) := by
    rw [zpow_natCast]; exact_mod_cast hn
  have h2 : (2 : ℚ) ^ (F.prec : Int) ≤ (2 : ℚ) ^ (F.emax + 1) :=
    zpow_le_zpow_right₀ (by norm_num) he
  rw [if_neg (by linarith)]

end FloatFormat

namespace FloatVal

theorem round64_nat (s : Bool) (n : Nat) (hn : n < 2 ^ 53) :
    binary64.round s (n : ℚ) = fin s n :=
  binary64.round_natCast s n hn (by decide) (by decide)

theorem round32_nat (s : Bool) (n : Nat) (hn : n < 2 ^ 24) :
    binary32.round s (n : ℚ) = fin s n :=
  binary32.round_natCast s n hn (by decide) (by decide)

theorem ofInt64_small (i : Int) (h : i.natAbs < 2 ^ 53) :
    ofInt binary64 i = fin (decide (i < 0)) (i.natAbs : ℚ) := by
  unfold ofInt
  have : |(i : ℚ)| = ((i.natAbs : Nat) : ℚ) := by
    rw [Nat.cast_natAbs, Int.cast_abs]
  rw [this]
  exact round64_nat _ _ h

theorem ofInt32_small (i : Int) (h : i.natAbs < 2 ^ 24) :
    ofInt binary32 i = fin (decide (i < 0)) (i.natAbs : ℚ) := by
  unfold ofInt
  have : |(i : ℚ)| = ((i.natAbs : Nat) : ℚ) := by
    rw [Nat.cast_natAbs, Int.cast_abs]
  rw [this]
  exact round32_nat _ _ h

theorem sqrt_four : sqrt (fin false 4) = fin false 2 := by
  have hlog : Int.log 2 (4 : ℚ) = 2 := by
    have h := Int.log_zpow (R := ℚ) (b := 2) (by norm_num) 2
    have e : ((2 : ℕ) : ℚ) ^ (2 : Int) = 4 := by norm_num
    rwa [e] at h
  have ht : (4 : ℚ) / ((2 : ℚ) ^ ((2 : Int) / 2 - 52) * (2 : ℚ) ^ ((2 : Int) / 2 - 52)) =
      ((2 ^ 104 : Nat) : ℚ) := by
    norm_num
  have hk : Nat.sqrt (2 ^ 104) = 2 ^ 52 := by
    have : (2 : Nat) ^ 104 = 2 ^ 52 * 2 ^ 52 := by norm_num
    rw [this, Nat.sqrt_eq]
  simp only [sqrt, hlog, ht, Nat.floor_natCast, hk]
  norm_num

end FloatVal

namespace SecondDegree

theorem solve_positive (ch : Challenge)
    (hD : 0 < wrap64 (ch.B * ch.B - 4 * ch.A * ch.C)) :
    (Solve ch).Roots =
      [ FloatVal.div binary64
          (FloatVal.add binary64 (FloatVal.neg (FloatVal.ofInt binary64 ch.B))
            (FloatVal.sqrt (FloatVal.ofInt binary32 (wrap64 (ch.B * ch.B - 4 * ch.A * ch.C)))))
          (FloatVal.mul binary64 FloatVal.two (FloatVal.ofInt binary64 ch.A)),
        FloatVal.div binary64
          (FloatVal.sub binary64 (FloatVal.neg (FloatVal.ofInt binary64 ch.B))
            (FloatVal.sqrt (FloatVal.ofInt binary32 (wrap64 (ch.B * ch.B - 4 * ch.A * ch.C)))))
          (FloatVal.mul binary64 FloatVal.two (FloatVal.ofInt binary64 ch.A)) ] := by
  have h := FloatVal.ofInt_gt_zero binary32 (by decide) (by decide)
    (wrap64 (ch.B * ch.B - 4 * ch.A * ch.C))
  unfold Solve
  simp only [discriminant_eq_wrap, h.1, hD, decide_True, if_true]

/-- C2, as stated, fails: for `A = 1, B = 2^32, C = 0` the product `B*B`
overflows `int`, the machine discriminant is `0` and `Solve` returns one root,
although `B² > 4AC`. -/
theorem solve_count_overflow :
    (1 : Int) ≠ 0 ∧ (4294967296 : Int) * 4294967296 > 4 * 1 * 0 ∧
      (Solve { A := 1, B := 4294967296, C := 0 }).Roots.length = 1 :=
  ⟨by decide, by decide, (solve_length { A := 1, B := 4294967296, C := 0 }).2.1 (by decide)⟩

/-- C2, amended. For every challenge of integers `(A, B, C)` with `A ≠ 0`
whose discriminant `B² - 4AC` fits in a 64-bit signed integer, `Solve` returns
exactly one root if `B² = 4AC`, exactly two roots if `B² > 4AC`, and no root
if `B² < 4AC`. -/
theorem solve_root_count (ch : Challenge) (_hA : ch.A ≠ 0)
    (hD : isInt64 (ch.B * ch.B - 4 * ch.A * ch.C)) :
    (ch.B * ch.B = 4 * ch.A * ch.C → (Solve ch).Roots.length = 1) ∧
      (ch.B * ch.B > 4 * ch.A * ch.C → (Solve ch).Roots.length = 2) ∧
      (ch.B * ch.B < 4 * ch.A * ch.C → (Solve ch).Roots.length = 0) := by
  have hw : wrap64 (ch.B * ch.B - 4 * ch.A * ch.C) = ch.B * ch.B - 4 * ch.A * ch.C :=
    wrap64_of_range hD.1 hD.2
  obtain ⟨h2, h1, h0⟩ := solve_length ch
  rw [hw] at h2 h1 h0
  exact ⟨fun h => h1 (by omega), fun h => h2 (by omega), fun h => h0 (by omega)⟩

theorem solve_root_count_witness :
    (Solve { A := 1, B := -3, C := 2 }).Roots.length = 2 ∧
      (Solve { A := 1, B := 2, C := 1 }).Roots.length = 1 ∧
      (Solve { A := 1, B := 0, C := 1 }).Roots.length = 0 :=
  ⟨(solve_root_count { A := 1, B := -3, C := 2 } (by decide) (by decide)).2.1 (by decide),
    (solve_root_count { A := 1, B := 2, C := 1 } (by decide) (by decide)).1 (by decide),
    (solve_root_count { A := 1, B := 0, C := 1 } (by decide) (by decide)).2.2 (by decide)⟩

/-- The two roots `Solve` returns for `A = -1, B = 0, C = 1`. -/
theorem solve_neg_one_zero_one :
    (Solve { A := -1, B := 0, C := 1 }).Roots = [FloatVal.fin true 1, FloatVal.fin false 1] := by
  rw [solve_positive _ (by decide)]
  have hd : wrap64 ((0 : Int) * 0 - 4 * (-1) * 1) = 4 := by decide
  simp only [hd]
  rw [FloatVal.ofInt32_small 4 (by decide), FloatVal.ofInt64_small 0 (by decide),
    FloatVal.ofInt64_small (-1) (by decide)]
  have e4 : ((Int.natAbs 4 : Nat) : ℚ) = 4 := by norm_num
  have e0 : ((Int.natAbs 0 : Nat) : ℚ) = 0 := by norm_num
  have e1 : ((Int.natAbs (-1) : Nat) : ℚ) = 1 := by norm_num
  rw [e4, e0, e1]
  simp only [show decide ((4 : Int) < 0) = false by decide,
    show decide ((0 : Int) < 0) = false by decide,
    show decide ((-1 : Int) < 0) = true by decide, FloatVal.sqrt_four]
  have r2 : ∀ s, binary64.round s 2 = FloatVal.fin s 2 := fun s => by
    have := FloatVal.round64_nat s 2 (by norm_num); simpa using this
  have r1 : ∀ s, binary64.round s 1 = FloatVal.fin s 1 := fun s => by
    have := FloatVal.round64_nat s 1 (by norm_num); simpa using this
  have m : FloatVal.mul binary64 FloatVal.two (FloatVal.fin true 1) = FloatVal.fin true 2 := by
    simp only [FloatVal.mul, FloatVal.two]
    norm_num [r2]
  have a1 : FloatVal.add binary64 (FloatVal.neg (FloatVal.fin false 0)) (FloatVal.fin false 2) =
      FloatVal.fin false 2 := by
    simp only [FloatVal.add, FloatVal.neg, signed, FloatFormat.roundRat]
    norm_num [r2]
  have a2 : FloatVal.sub binary64 (FloatVal.neg (FloatVal.fin false 0)) (FloatVal.fin false 2) =
      FloatVal.fin true 2 := by
    simp only [FloatVal.sub, FloatVal.add, FloatVal.neg, signed, FloatFormat.roundRat]
    norm_num [r2]
  rw [m, a1, a2]
  simp only [FloatVal.div]
  norm_num [r1]

/-- C3, as stated, fails: for `A = -1, B = 0, C = 1` (`D = 4 > 0`) `Solve`
returns the roots `-1` then `1`, and the first is not the larger. -/
theorem solve_first_root_smaller :
    (-1 : Int) ≠ 0 ∧ (0 : Int) * 0 - 4 * (-1) * 1 > 0 ∧
      (Solve { A := -1, B := 0, C := 1 }).Roots = [FloatVal.fin true 1, FloatVal.fin false 1] ∧
      FloatVal.ge (FloatVal.fin true 1) (FloatVal.fin false 1) = false := by
  refine ⟨by decide, by decide, solve_neg_one_zero_one, ?_⟩
  simp only [FloatVal.ge, FloatVal.lt, FloatVal.eq, signed]
  norm_num

theorem two_pow_le_116 : (2 : ℚ) ^ (63 : Int) ≤ (2 : ℚ) ^ (116 : Int) :=
  zpow_le_zpow_right₀ (by norm_num) (by norm_num)

/-- The order of the two floating-point roots, by the sign of `A`. -/
theorem roots_order (ch : Challenge) (hA : ch.A ≠ 0) (hwA : isInt64 ch.A)
    (hwB : isInt64 ch.B) (hD : 0 < ch.B * ch.B - 4 * ch.A * ch.C)
    (hDr : ch.B * ch.B - 4 * ch.A * ch.C < 9223372036854775808) :
    (0 < ch.A → (rootPlus ch).ge (rootMinus ch) = true) ∧
      (ch.A < 0 → (rootMinus ch).ge (rootPlus ch) = true) := by
  -- the discriminant as a float32
  have hDi : isInt64 (ch.B * ch.B - 4 * ch.A * ch.C) := ⟨by omega, hDr⟩
  obtain ⟨ed, hd0, hd1⟩ := FloatVal.ofInt_fin binary32 (by decide) (by decide) (by decide)
    _ hDi
  have hdneg : decide (ch.B * ch.B - 4 * ch.A * ch.C < 0) = false := by simp; omega
  rw [hdneg] at ed
  have hdone : 1 ≤ binary32.roundMag |((ch.B * ch.B - 4 * ch.A * ch.C : Int) : ℚ)| := by
    have hone : binary32.roundMag 1 = 1 := by
      have := binary32.roundMag_pow (by decide) 0 (by decide)
      simpa using this
    have h1 : (1 : ℚ) ≤ |((ch.B * ch.B - 4 * ch.A * ch.C : Int) : ℚ)| := by
      have : (1 : Int) ≤ |ch.B * ch.B - 4 * ch.A * ch.C| := Int.one_le_abs (by omega)
      exact_mod_cast this
    have := binary32.roundMag_mono (by decide) (by norm_num) h1
    rwa [hone] at this
  -- its square root
  obtain ⟨ms, es, hs0, hs1⟩ := FloatVal.sqrt_fin hdone hd1
  -- B and A as float64
  obtain ⟨eb, hb0, hb1⟩ := FloatVal.ofInt_fin binary64 (by decide) (by decide) (by decide)
    _ hwB
  obtain ⟨ea, ha0, ha1⟩ := FloatVal.ofInt_fin binary64 (by decide) (by decide) (by decide)
    _ hwA
  have haone : 1 ≤ binary64.roundMag |(ch.A : ℚ)| := by
    have hone : binary64.roundMag 1 = 1 := by
      have := binary64.roundMag_pow (by decide) 0 (by decide)
      simpa using this
    have h1 : (1 : ℚ) ≤ |(ch.A : ℚ)| := by
      have : (1 : Int) ≤ |ch.A| := Int.one_le_abs hA
      exact_mod_cast this
    have := binary64.roundMag_mono (by decide) (by norm_num) h1
    rwa [hone] at this
  obtain ⟨em, hm1⟩ := FloatVal.mul_two_fin (decide (ch.A < 0)) haone ha1
  -- the two numerators
  have hb116 := le_trans hb1 two_pow_le_116
  obtain ⟨s0, m0, e0, hm00, hm01, hv0⟩ :=
    FloatVal.add_fin (!decide (ch.B < 0)) false 116 hb0 hs0 hb116 hs1 (by norm_num)
      (by norm_num)
  obtain ⟨s1, m1, e1, hm10, hm11, hv1⟩ :=
    FloatVal.add_fin (!decide (ch.B < 0)) true 116 hb0 hs0 hb116 hs1 (by norm_num)
      (by norm_num)
  have hle : signed s1 m1 ≤ signed s0 m0 := by
    rw [hv0, hv1]
    apply binary64.roundSigned_mono (by decide)
    simp only [signed, if_true, if_false, Bool.false_eq_true]
    linarith
  -- the two quotients
  have q0 := FloatVal.div_fin s0 (decide (ch.A < 0)) (116 + 1) hm00 hm01 hm1 (by norm_num)
    (by norm_num)
  have q1 := FloatVal.div_fin s1 (decide (ch.A < 0)) (116 + 1) hm10 hm11 hm1 (by norm_num)
    (by norm_num)
  have hplus : rootPlus ch = FloatVal.fin (xor s0 (decide (ch.A < 0)))
      (binary64.roundMag (m0 / binary64.roundMag (2 * binary64.roundMag |(ch.A : ℚ)|))) := by
    unfold rootPlus
    rw [ed, es, eb, ea, em, FloatVal.neg_fin, e0, q0]
  have hminus : rootMinus ch = FloatVal.fin (xor s1 (decide (ch.A < 0)))
      (binary64.roundMag (m1 / binary64.roundMag (2 * binary64.roundMag |(ch.A : ℚ)|))) := by
    unfold rootMinus FloatVal.sub
    rw [ed, es, eb, ea, em, FloatVal.neg_fin, FloatVal.neg_fin, Bool.not_false, e1, q1]
  have hmono := FloatVal.signed_div_mono hm00 hm10 (by linarith : 0 < binary64.roundMag
    (2 * binary64.roundMag |(ch.A : ℚ)|)) hle
  rw [hplus, hminus, FloatVal.ge_fin, FloatVal.ge_fin]
  constructor
  · intro hpos
    have : decide (ch.A < 0) = false := by simp; omega
    rw [this, Bool.xor_false, Bool.xor_false]
    exact hmono
  · intro hneg
    have : decide (ch.A < 0) = true := by simpa using hneg
    rw [this, Bool.xor_true, Bool.xor_true, FloatVal.signed_not, FloatVal.signed_not]
    linarith

/-- C3, amended. For every challenge `(A, B, C)` of Go integers with `A ≠ 0`
and discriminant `D = B² - 4AC > 0` that fits in a 64-bit signed integer,
`Solve` returns the two roots in the order `(-B + √D) / 2A` then
`(-B - √D) / 2A`; the first returned root is the larger of the two when
`A > 0` (`Roots[0] >= Roots[1]`) and the smaller when `A < 0`
(`Roots[1] >= Roots[0]`). -/
theorem solve_roots_order (ch : Challenge) (hA : ch.A ≠ 0) (hwA : isInt64 ch.A)
    (hwB : isInt64 ch.B) (hD : 0 < ch.B * ch.B - 4 * ch.A * ch.C)
    (hDr : ch.B * ch.B - 4 * ch.A * ch.C < 9223372036854775808) :
    (Solve ch).Roots = [rootPlus ch, rootMinus ch] ∧
      (0 < ch.A → (rootPlus ch).ge (rootMinus ch) = true) ∧
      (ch.A < 0 → (rootMinus ch).ge (rootPlus ch) = true) := by
  refine ⟨?_, roots_order ch hA hwA hwB hD hDr⟩
  have hw : wrap64 (ch.B * ch.B - 4 * ch.A * ch.C) = ch.B * ch.B - 4 * ch.A * ch.C :=
    wrap64_of_range (by omega) hDr
  rw [solve_positive ch (by rw [hw]; exact hD), hw]
  rfl

theorem solve_roots_order_witness :
    ((Solve { A := 1, B := -3, C := 2 }).Roots =
        [rootPlus { A := 1, B := -3, C := 2 }, rootMinus { A := 1, B := -3, C := 2 }] ∧
      (rootPlus { A := 1, B := -3, C := 2 }).ge (rootMinus { A := 1, B := -3, C := 2 }) = true) ∧
      (rootMinus { A := -1, B := 0, C := 1 }).ge (rootPlus { A := -1, B := 0, C := 1 }) = true :=
  ⟨⟨(solve_roots_order { A := 1, B := -3, C := 2 } (by decide) (by decide) (by decide)
      (by decide) (by decide)).1,
    (solve_roots_order { A := 1, B := -3, C := 2 } (by decide) (by decide) (by decide)
      (by decide) (by decide)).2.1 (by decide)⟩,
    (solve_roots_order { A := -1, B := 0, C := 1 } (by decide) (by decide) (by decide)
      (by decide) (by decide)).2.2 (by decide)⟩

end SecondDegree

/-! ## Theorems: root formatting -/

namespace SecondDegree

theorem rdropWhile_append_cons {α : Type} (p : α → Bool) (a b : List α) (x : α)
    (hx : p x = false) :
    (a ++ x :: b).rdropWhile p = a ++ x :: b.rdropWhile p := by
  induction b using List.reverseRecOn with
  | nil =>
    rw [List.rdropWhile_nil]
    exact List.rdropWhile_concat_neg p a x (by simp [hx])
  | append_singleton b y ih =>
    have e : a ++ x :: (b ++ [y]) = (a ++ x :: b) ++ [y] := by simp
    rw [e, List.rdropWhile_concat, List.rdropWhile_concat, ih]
    split_ifs <;> simp

theorem digitChar_ne (d : Nat) (hd : d < 10) :
    Nat.digitChar d ≠ '.' ∧ Nat.digitChar d ≠ '-' ∧ Nat.digitChar d ≠ 'N' ∧
      Nat.digitChar d ≠ '+' ∧ Nat.digitChar d ≠ 'I' ∧
      (Nat.digitChar d).toNat - 48 = d := by
  interval_cases d <;> decide

/-- A digit: one of the characters `0` to `9`. -/
theorem natDigitsAux_digits (fuel n : Nat) :
    ∀ c ∈ natDigitsAux fuel n, ∃ d, d < 10 ∧ c = Nat.digitChar d := by
  induction fuel generalizing n with
  | zero => intro c hc; simp [natDigitsAux] at hc
  | succ fuel ih =>
    intro c hc
    unfold natDigitsAux at hc
    split_ifs at hc with h
    · simp only [List.mem_singleton] at hc
      exact ⟨n, h, hc⟩
    · simp only [List.mem_append, List.mem_singleton] at hc
      rcases hc with hc | hc
      · exact ih _ c hc
      · exact ⟨n % 10, Nat.mod_lt _ (by norm_num), hc⟩

theorem natDigits_last (n : Nat) :
    ∃ init d, d < 10 ∧ natDigits n = init ++ [Nat.digitChar d] := by
  unfold natDigits natDigitsAux
  split_ifs with h
  · exact ⟨[], n, h, rfl⟩
  · exact ⟨_, n % 10, Nat.mod_lt _ (by norm_num), rfl⟩

theorem natDigits_head (n : Nat) :
    ∃ d rest, d < 10 ∧ natDigits n = Nat.digitChar d :: rest := by
  obtain ⟨init, d, hd, e⟩ := natDigits_last n
  cases hi : natDigits n with
  | nil => rw [hi] at e; simp at e
  | cons c rest =>
    obtain ⟨d', hd', hc⟩ := natDigitsAux_digits (n + 1) n c (by
      show c ∈ natDigits n
      rw [hi]; simp)
    exact ⟨d', rest, hd', by rw [hc]⟩

/-- Trimming the whole rendering trims its fraction only: the digits of the
integer part are never removed. -/
theorem trim_rendering (s : Bool) (n r : Nat) :
    TrimRight (TrimRight (signChars s ++ natDigits n ++ '.' :: fracDigits r) '0') '.' =
      signChars s ++ natDigits n ++ TrimRight ('.' :: TrimRight (fracDigits r) '0') '.' := by
  unfold TrimRight
  rw [rdropWhile_append_cons _ _ _ _ (by decide)]
  obtain ⟨init, d, hd, e⟩ := natDigits_last n
  have hdot : (Nat.digitChar d == '.') = false := by
    simpa using (digitChar_ne d hd).1
  rw [e]
  have e2 : signChars s ++ (init ++ [Nat.digitChar d]) ++
      '.' :: List.rdropWhile (fun c => c == '0') (fracDigits r) =
      (signChars s ++ init) ++ Nat.digitChar d ::
        ('.' :: List.rdropWhile (fun c => c == '0') (fracDigits r)) := by
    simp
  rw [e2, rdropWhile_append_cons (fun c => c == '.') _ _ _ hdot]
  simp

end SecondDegree

namespace FloatFormat

/-- Rounding is to nearest: no value of the format is nearer to `y` than the
rounding of `y`. -/
theorem roundMag_nearest (F : FloatFormat) (hp : 1 ≤ F.prec) {m y : ℚ} (hm0 : 0 ≤ m)
    (hrep : F.roundMag m = m) (hy : 0 ≤ y) : |y - F.roundMag y| ≤ |y - m| := by
  have h3 : ((2 : ℕ) : ℚ) = 2 := by norm_num
  have hp' : (1 : Int) ≤ (F.prec : Int) := by exact_mod_cast hp
  rcases eq_or_lt_of_le hm0 with hm | hmpos
  · have := F.roundMag_nearest_grid y 0
    simpa [← hm] using this
  rcases eq_or_lt_of_le hy with hy0 | hypos
  · rw [← hy0, roundMag_zero]; simp
  rcases lt_trichotomy (max (Int.log 2 m) F.emin) (max (Int.log 2 y) F.emin) with hlt | heq | hgt
  · -- m lies in a lower binade than y
    have hEy : max (Int.log 2 y) F.emin = Int.log 2 y := by
      rcases le_total (Int.log 2 y) F.emin with h | h
      · exfalso
        rw [max_eq_right h] at hlt
        exact absurd (le_max_right (Int.log 2 m) F.emin) (not_le.mpr hlt)
      · exact max_eq_left h
    have hy2 : (2 : ℚ) ^ (max (Int.log 2 y) F.emin) ≤ y := by
      rw [hEy]
      have h1 : ((2 : ℕ) : ℚ) ^ (Int.log 2 y) ≤ y := Int.zpow_log_le_self (by norm_num) hypos
      rwa [h3] at h1
    have hm2 : m ≤ (2 : ℚ) ^ (max (Int.log 2 y) F.emin) := by
      have h1 : m < ((2 : ℕ) : ℚ) ^ (Int.log 2 m + 1) :=
        Int.lt_zpow_succ_log_self (by norm_num) m
      rw [h3] at h1
      have h2 : (2 : ℚ) ^ (Int.log 2 m + 1) ≤ (2 : ℚ) ^ (max (Int.log 2 y) F.emin) :=
        zpow_le_zpow_right₀ (by norm_num) (by have := le_max_left (Int.log 2 m) F.emin; omega)
      linarith
    obtain ⟨n, hn⟩ := F.pow_eq_grid y (max (Int.log 2 y) F.emin) (by omega)
    have := F.roundMag_nearest_grid y n
    rw [← hn] at this
    rw [abs_of_nonneg (by linarith : 0 ≤ y - (2 : ℚ) ^ (max (Int.log 2 y) F.emin))] at this
    rw [abs_of_nonneg (by linarith : 0 ≤ y - m)]
    linarith
  · -- same binade: m is a point of the grid of y
    have hu : F.ulp m = F.ulp y := by unfold ulp; rw [heq]
    have hm : m = (roundHalfEven (m / F.ulp m) : ℚ) * F.ulp y := by
      rw [← hu]; exact hrep.symm
    have := F.roundMag_nearest_grid y (roundHalfEven (m / F.ulp m))
    rwa [← hm] at this
  · -- m lies in a higher binade than y
    have hEm : max (Int.log 2 m) F.emin = Int.log 2 m := by
      rcases le_total (Int.log 2 m) F.emin with h | h
      · exfalso
        rw [max_eq_right h] at hgt
        exact absurd (le_max_right (Int.log 2 y) F.emin) (not_le.mpr hgt)
      · exact max_eq_left h
    have hm2 : (2 : ℚ) ^ (max (Int.log 2 m) F.emin) ≤ m := by
      rw [hEm]
      have h1 : ((2 : ℕ) : ℚ) ^ (Int.log 2 m) ≤ m := Int.zpow_log_le_self (by norm_num) hmpos
      rwa [h3] at h1
    have hy2 : y ≤ (2 : ℚ) ^ (max (Int.log 2 y) F.emin + 1) := by
      have h1 : y < ((2 : ℕ) : ℚ) ^ (Int.log 2 y + 1) :=
        Int.lt_zpow_succ_log_self (by norm_num) y
      rw [h3] at h1
      have h2 : (2 : ℚ) ^ (Int.log 2 y + 1) ≤ (2 : ℚ) ^ (max (Int.log 2 y) F.emin + 1) :=
        zpow_le_zpow_right₀ (by norm_num) (by have := le_max_left (Int.log 2 y) F.emin; omega)
      linarith
    have h12 : (2 : ℚ) ^ (max (Int.log 2 y) F.emin + 1) ≤ (2 : ℚ) ^ (max (Int.log 2 m) F.emin) :=
      zpow_le_zpow_right₀ (by norm_num) (by omega)
    obtain ⟨n, hn⟩ := F.pow_eq_grid y (max (Int.log 2 y) F.emin + 1) (by omega)
    have := F.roundMag_nearest_grid y n
    rw [← hn] at this
    rw [abs_of_nonpos (by linarith : y - (2 : ℚ) ^ (max (Int.log 2 y) F.emin + 1) ≤ 0)] at this
    rw [abs_of_nonpos (by linarith : y - m ≤ 0)]
    linarith

/-- A value of the format whose unit in the last place is at least one is an
integer. -/
theorem integer_of_large (F : FloatFormat) {m : ℚ} (hrep : F.roundMag m = m)
    (hE : 0 ≤ max (Int.log 2 m) F.emin - (F.prec : Int) + 1) : ∃ z : Int, m = z := by
  refine ⟨roundHalfEven (m / F.ulp m) *
    2 ^ (max (Int.log 2 m) F.emin - (F.prec : Int) + 1).toNat, ?_⟩
  have hu : F.ulp m =
      ((2 ^ (max (Int.log 2 m) F.emin - (F.prec : Int) + 1).toNat : Int) : ℚ) := by
    unfold ulp
    push_cast
    rw [← zpow_natCast]
    congr 1
    omega
  have h := hrep.symm
  unfold roundMag at h
  rw [Int.cast_mul, ← hu]
  exact h

end FloatFormat

namespace SecondDegree

/-- Re-reading a number printed with three decimals: the decimal `q/1000`
printed for a `float64` of magnitude `m` rounds to a finite `float64` that
prints as `q` thousandths again. -/
theorem reround (s : Bool) {m : ℚ} (hm0 : 0 ≤ m) (hrep : binary64.roundMag m = m)
    (hlt : m < (2 : ℚ) ^ (1024 : Int)) :
    binary64.round s ((roundHalfEven (m * 1000) : ℚ) / 1000) =
        .fin s (binary64.roundMag ((roundHalfEven (m * 1000) : ℚ) / 1000)) ∧
      roundHalfEven (binary64.roundMag ((roundHalfEven (m * 1000) : ℚ) / 1000) * 1000) =
        roundHalfEven (m * 1000) := by
  set q : Int := roundHalfEven (m * 1000) with hq
  have hq0 : (0 : ℚ) ≤ (q : ℚ) := by
    exact_mod_cast roundHalfEven_nonneg (mul_nonneg hm0 (by norm_num))
  have hy0 : (0 : ℚ) ≤ (q : ℚ) / 1000 := div_nonneg hq0 (by norm_num)
  have herr : |m * 1000 - q| ≤ 1 / 2 := abs_sub_roundHalfEven_le (m * 1000)
  have hnear := binary64.roundMag_nearest (by decide) hm0 hrep hy0
  set g : ℚ := binary64.roundMag ((q : ℚ) / 1000) with hg
  have e1 : |g * 1000 - q| = 1000 * |(q : ℚ) / 1000 - g| := by
    rw [show g * 1000 - (q : ℚ) = -(1000 * ((q : ℚ) / 1000 - g)) by ring, abs_neg, abs_mul]
    norm_num
  have e2 : |m * 1000 - q| = 1000 * |(q : ℚ) / 1000 - m| := by
    rw [show m * 1000 - (q : ℚ) = -(1000 * ((q : ℚ) / 1000 - m)) by ring, abs_neg, abs_mul]
    norm_num
  have hle : |g * 1000 - q| ≤ |m * 1000 - q| := by
    rw [e1, e2]; linarith
  constructor
  · -- the rounding does not overflow
    have hfin : g < (2 : ℚ) ^ (1024 : Int) := by
      rcases le_or_lt ((q : ℚ) / 1000) m with hym | hym
      · have := binary64.roundMag_mono (by decide) hy0 hym
        rw [hrep] at this
        linarith
      · by_cases hE : 0 ≤ max (Int.log 2 m) binary64.emin - (binary64.prec : Int) + 1
        · exfalso
          obtain ⟨z, hz⟩ := binary64.integer_of_large hrep hE
          have : q = z * 1000 := by
            rw [hq, hz]
            have := roundHalfEven_intCast (z * 1000)
            push_cast at this
            exact this
          rw [this, hz] at hym
          push_cast at hym
          linarith
        · have hlog : Int.log 2 m + 1 ≤ 52 := by
            have := le_max_left (Int.log 2 m) binary64.emin
            simp only [binary64] at hE this ⊢
            omega
          have hm52 : m < (2 : ℚ) ^ (52 : Int) := by
            have h1 : m < ((2 : ℕ) : ℚ) ^ (Int.log 2 m + 1) :=
              Int.lt_zpow_succ_log_self (by norm_num) m
            have h3 : ((2 : ℕ) : ℚ) = 2 := by norm_num
            rw [h3] at h1
            have h2 : (2 : ℚ) ^ (Int.log 2 m + 1) ≤ (2 : ℚ) ^ (52 : Int) :=
              zpow_le_zpow_right₀ (by norm_num) hlog
            linarith
          have hy53 : (q : ℚ) / 1000 ≤ (2 : ℚ) ^ (53 : Int) := by
            rw [abs_le] at herr
            have : (2 : ℚ) ^ (53 : Int) = 2 * (2 : ℚ) ^ (52 : Int) := by norm_num
            have h52 : (1 : ℚ) ≤ (2 : ℚ) ^ (52 : Int) := by norm_num
            rw [this]
            linarith
          have := (binary64.round_of_le (by decide) s 53 hy0 hy53 (by decide) (by decide)).2
          have h2 : (2 : ℚ) ^ (53 : Int) < (2 : ℚ) ^ (1024 : Int) :=
            zpow_lt_zpow_right₀ (by norm_num) (by norm_num)
          linarith
    unfold FloatFormat.round
    have : binary64.emax + 1 = 1024 := by decide
    rw [this, if_neg (not_le.mpr hfin)]
  · rcases lt_or_eq_of_le (le_trans hle herr) with hlt2 | heq2
    · exact roundHalfEven_eq_of_abs_lt hlt2
    · have hmt : |m * 1000 - q| = 1 / 2 := le_antisymm herr (by rw [← heq2]; exact hle)
      have heven : q % 2 = 0 := (roundHalfEven_tie hmt).mp hq.symm
      exact (roundHalfEven_tie heq2).mpr heven

theorem parseNat_concat (l : List Char) (c : Char) :
    parseNat (l ++ [c]) = 10 * parseNat l + (c.toNat - 48) := by
  simp [parseNat, List.foldl_append]

theorem parseNat_natDigitsAux (fuel n : Nat) (h : n < fuel) :
    parseNat (natDigitsAux fuel n) = n := by
  induction fuel generalizing n with
  | zero => omega
  | succ fuel ih =>
    unfold natDigitsAux
    split_ifs with h10
    · have := (digitChar_ne n h10).2.2.2.2.2
      simp [parseNat, this]
    · rw [parseNat_concat, ih (n / 10) (by omega),
        (digitChar_ne (n % 10) (Nat.mod_lt _ (by norm_num))).2.2.2.2.2]
      omega

theorem parseNat_natDigits (n : Nat) : parseNat (natDigits n) = n :=
  parseNat_natDigitsAux (n + 1) n (by omega)

/-- The value of a string of fraction digits. -/
theorem fracVal_trim (l : List Char) :
    (parseNat (TrimRight l '0') : ℚ) / (10 : ℚ) ^ (TrimRight l '0').length =
      (parseNat l : ℚ) / (10 : ℚ) ^ l.length := by
  unfold TrimRight
  induction l using List.reverseRecOn with
  | nil => simp
  | append_singleton l x ih =>
    rw [List.rdropWhile_concat]
    split_ifs with hx
    · have hx0 : x = '0' := by simpa using hx
      rw [ih, parseNat_concat, hx0]
      simp only [List.length_append, List.length_singleton, pow_succ]
      have : ('0' : Char).toNat - 48 = 0 := by decide
      rw [this]
      push_cast
      field_simp
      ring
    · rfl

theorem fracVal_fracDigits (r : Nat) (hr : r < 1000) :
    (parseNat (fracDigits r) : ℚ) / (10 : ℚ) ^ (fracDigits r).length = (r : ℚ) / 1000 := by
  have a := (digitChar_ne (r / 100) (by omega)).2.2.2.2.2
  have b := (digitChar_ne (r / 10 % 10) (by omega)).2.2.2.2.2
  have c := (digitChar_ne (r % 10) (by omega)).2.2.2.2.2
  have e : parseNat (fracDigits r) = r := by
    simp only [parseNat, fracDigits, List.foldl, a, b, c]
    omega
  rw [e]
  simp [fracDigits]
  norm_num

theorem natDigits_no_point (n : Nat) : ∀ c ∈ natDigits n, (c != '.') = true := by
  intro c hc
  obtain ⟨d, hd, e⟩ := natDigitsAux_digits (n + 1) n c hc
  rw [e]
  simpa using (digitChar_ne d hd).1

theorem fracDigits_digits (r : Nat) (hr : r < 1000) :
    ∀ c ∈ fracDigits r, ∃ d, d < 10 ∧ c = Nat.digitChar d := by
  intro c hc
  simp only [fracDigits, List.mem_cons, List.mem_singleton, List.not_mem_nil, or_false] at hc
  rcases hc with h | h | h
  · exact ⟨r / 100, by omega, h⟩
  · exact ⟨r / 10 % 10, by omega, h⟩
  · exact ⟨r % 10, by omega, h⟩

/-- The trimmed fraction, decimal point included: empty, or the point
followed by the trimmed digits. -/
theorem trimmed_fraction (r : Nat) (hr : r < 1000) :
    (TrimRight ('.' :: TrimRight (fracDigits r) '0') '.').takeWhile (fun c => c != '.') = [] ∧
      ((TrimRight ('.' :: TrimRight (fracDigits r) '0') '.').dropWhile
        (fun c => c != '.')).drop 1 = TrimRight (fracDigits r) '0' := by
  rcases List.eq_nil_or_concat (TrimRight (fracDigits r) '0') with h | ⟨init, x, h⟩
  · rw [h]
    constructor <;> decide
  · have hx : x ∈ fracDigits r := by
      have hp : TrimRight (fracDigits r) '0' <+: fracDigits r := List.rdropWhile_prefix _ _
      exact hp.subset (by rw [h]; simp)
    obtain ⟨d, hd, e⟩ := fracDigits_digits r hr x hx
    have hdot : (x == '.') = false := by
      rw [e]; simpa using (digitChar_ne d hd).1
    have e2 : TrimRight ('.' :: TrimRight (fracDigits r) '0') '.' =
        '.' :: TrimRight (fracDigits r) '0' := by
      rw [h]
      unfold TrimRight
      have := rdropWhile_append_cons (fun c => c == '.') ('.' :: init) [] x hdot
      simpa using this
    rw [e2]
    constructor
    · simp
    · simp

theorem parseDecimal_rendering (n r : Nat) (hr : r < 1000) :
    parseDecimal (natDigits n ++ TrimRight ('.' :: TrimRight (fracDigits r) '0') '.') =
      (n : ℚ) + (r : ℚ) / 1000 := by
  obtain ⟨h1, h2⟩ := trimmed_fraction r hr
  unfold parseDecimal
  rw [List.takeWhile_append_of_pos (natDigits_no_point n),
    List.dropWhile_append_of_pos (natDigits_no_point n), h1, h2, List.append_nil,
    parseNat_natDigits, fracVal_trim, fracVal_fracDigits r hr]

theorem format_fin (s : Bool) (m : ℚ) :
    (format (.fin s m)).data =
      signChars s ++ natDigits ((roundHalfEven (m * 1000)).toNat / 1000) ++
        TrimRight ('.' :: TrimRight
          (fracDigits ((roundHalfEven (m * 1000)).toNat % 1000)) '0') '.' := by
  simp only [format, Sprintf3]
  exact trim_rendering s _ _

theorem parseFloat_format_fin (s : Bool) {m : ℚ} (hm0 : 0 ≤ m) :
    parseFloat (format (.fin s m)).data =
      binary64.round s ((roundHalfEven (m * 1000) : ℚ) / 1000) := by
  have hq0 : 0 ≤ roundHalfEven (m * 1000) :=
    roundHalfEven_nonneg (mul_nonneg hm0 (by norm_num))
  rw [format_fin]
  set N : Nat := (roundHalfEven (m * 1000)).toNat with hN
  have hNq : (N : ℚ) = (roundHalfEven (m * 1000) : ℚ) := by
    have : (N : Int) = roundHalfEven (m * 1000) := Int.toNat_of_nonneg hq0
    exact_mod_cast this
  have hval : ((N / 1000 : Nat) : ℚ) + ((N % 1000 : Nat) : ℚ) / 1000 =
      (roundHalfEven (m * 1000) : ℚ) / 1000 := by
    rw [← hNq]
    have : (N : ℚ) = ((N / 1000 : Nat) : ℚ) * 1000 + ((N % 1000 : Nat) : ℚ) := by
      have := Nat.div_add_mod N 1000
      have e : ((1000 * (N / 1000) + N % 1000 : Nat) : ℚ) = (N : ℚ) := by rw [this]
      push_cast at e
      linarith
    rw [this]
    field_simp
  have hpd := parseDecimal_rendering (N / 1000) (N % 1000) (Nat.mod_lt _ (by norm_num))
  rw [hval] at hpd
  obtain ⟨d, rest, hd, hI⟩ := natDigits_head (N / 1000)
  obtain ⟨n1, n2, n3, n4, n5, _⟩ := digitChar_ne d hd
  cases s with
  | false =>
    have hcs : signChars false ++ natDigits (N / 1000) ++
        TrimRight ('.' :: TrimRight (fracDigits (N % 1000)) '0') '.' =
        natDigits (N / 1000) ++
          TrimRight ('.' :: TrimRight (fracDigits (N % 1000)) '0') '.' := by
      simp [signChars]
    rw [hcs]
    unfold parseFloat
    rw [hpd]
    rw [hI]
    simp [n2, n3, n4]
  | true =>
    have hcs : signChars true ++ natDigits (N / 1000) ++
        TrimRight ('.' :: TrimRight (fracDigits (N % 1000)) '0') '.' =
        '-' :: (natDigits (N / 1000) ++
          TrimRight ('.' :: TrimRight (fracDigits (N % 1000)) '0') '.') := by
      simp [signChars]
    rw [hcs]
    unfold parseFloat
    simp only [List.tail_cons, List.head?_cons, hpd]
    rw [hI]
    simp [n5]

/-- Formatting is idempotent through the number the string denotes. -/
theorem format_parse (f : FloatVal) (hf : IsFloat64 f) :
    format (parseFloat (format f).data) = format f := by
  cases f with
  | nan => decide
  | inf b => cases b <;> decide
  | fin s m =>
    obtain ⟨hm0, hrep, hlt⟩ := hf
    obtain ⟨h1, h2⟩ := reround s hm0 hrep hlt
    rw [parseFloat_format_fin s hm0, h1]
    simp only [format, Sprintf3, h2]

/-- C9. For every finite root value `f`, `format f` is the rendering of `f`
rounded to 3 decimal digits (sign, integer digits, decimal point, three
fraction digits) with the trailing zeros of the fraction and then a trailing
decimal point removed, the digits of the integer part being kept
(`2.000 -> "2"`, `1.250 -> "1.25"`, `100.000 -> "100"`); and formatting is
idempotent: formatting the `float64` denoted by the string `format f` returns
that same string (the special values print as `NaN`, `+Inf`, `-Inf`, which
denote themselves). -/
theorem format_spec :
    (∀ (s : Bool) (m : ℚ),
        (format (.fin s m)).data =
          signChars s ++ natDigits ((roundHalfEven (m * 1000)).toNat / 1000) ++
            TrimRight ('.' :: TrimRight
              (fracDigits ((roundHalfEven (m * 1000)).toNat % 1000)) '0') '.') ∧
      (format (.fin false 2) = "2" ∧ format (.fin false (5 / 4)) = "1.25" ∧
        format (.fin false 100) = "100") ∧
      (format .nan = "NaN" ∧ format (.inf false) = "+Inf" ∧ format (.inf true) = "-Inf") ∧
      (∀ f : FloatVal, IsFloat64 f → format (parseFloat (format f).data) = format f) := by
  refine ⟨format_fin, ⟨?_, ?_, ?_⟩, ⟨by decide, by decide, by decide⟩, format_parse⟩
  · have : roundHalfEven ((2 : ℚ) * 1000) = 2000 := by
      have := roundHalfEven_intCast 2000
      norm_num at this ⊢
      exact this
    simp only [format, Sprintf3, this]
    decide
  · have : roundHalfEven ((5 / 4 : ℚ) * 1000) = 1250 := by
      have := roundHalfEven_intCast 1250
      norm_num at this ⊢
      exact this
    simp only [format, Sprintf3, this]
    decide
  · have : roundHalfEven ((100 : ℚ) * 1000) = 100000 := by
      have := roundHalfEven_intCast 100000
      norm_num at this ⊢
      exact this
    simp only [format, Sprintf3, this]
    decide

theorem isFloat64_five_quarters : IsFloat64 (.fin false (5 / 4)) := by
  refine ⟨by norm_num, ?_, ?_⟩
  · have := binary64.roundMag_dyadic 5 (-2) (by decide) (by decide)
    have e : ((5 : ℕ) : ℚ) * (2 : ℚ) ^ (-2 : Int) = 5 / 4 := by norm_num
    rwa [e] at this
  · have h : (1 : ℚ) ≤ (2 : ℚ) ^ (1024 : Int) := one_le_zpow₀ (by norm_num) (by norm_num)
    have : (5 / 4 : ℚ) < 2 * 1 := by norm_num
    have h2 : (2 : ℚ) ^ (1 : Int) ≤ (2 : ℚ) ^ (1024 : Int) :=
      zpow_le_zpow_right₀ (by norm_num) (by norm_num)
    simp only [zpow_one] at h2
    linarith

theorem format_spec_witness :
    IsFloat64 (.fin false (5 / 4)) ∧
      format (parseFloat (format (.fin false (5 / 4))).data) = format (.fin false (5 / 4)) :=
  ⟨isFloat64_five_quarters, format_spec.2.2.2 (.fin false (5 / 4)) isFloat64_five_quarters⟩

end SecondDegree
